import Mathlib

set_option maxRecDepth 1000000
set_option synthInstance.maxSize 4000

/-!
Verification of the Sudoku wave-function-collapse solver (src/main.py).

The embedding is shallow and executable: Python's mutable `Board` object
becomes a Lean structure that is threaded through the functions, the
in-place list mutations become functional updates, and the unbounded
recursion of `iterate` / `iterate2` is driven by an explicit fuel
parameter (`Res.out` reports fuel exhaustion and is never identified
with any behaviour of the source).  A cell of `Board.board` is either a
settled integer (`Cell.val`) or a list of remaining candidate values
(`Cell.cands`), exactly mirroring the `int` / `list` dichotomy that the
Python code tests with `isinstance`.  The uncaught `TypeError` raised at
`y, x = board.lowest_entropy()` when the scan returns `None`, and at
`for attempt in board.board[y][x]` when that cell is an `int`, is made
explicit as `Res.crash`.
-/

namespace Main

/-- A cell of the board: a settled value (`int` in the source) or the list
of remaining candidates (`list` in the source). -/
inductive Cell where
  | val (v : Nat)
  | cands (cs : List Nat)
deriving DecidableEq

/-- Python truth test `isinstance(cell, int)` for our two-constructor cell. -/
def Cell.isVal : Cell → Bool
  | .val _ => true
  | .cands _ => false

/-- The `Board` class (src/main.py lines 39-61): the grid of cells, the
dimensions, the `toDo` work list, the `unsolved` counter and the
sub-square size.  The display-only field `return_line_string` is omitted
(pretty-printing is out of scope). -/
structure Board where
  board : List (List Cell)
  width : Nat
  height : Nat
  toDo : List (Nat × Nat)
  unsolved : Nat
  sub_block : Nat
deriving DecidableEq

/-- Read `bd[y][x]`; out-of-range reads default to `Cell.val 0` (the
source never performs them on the inputs considered). -/
def getCell (bd : List (List Cell)) (y x : Nat) : Cell :=
  (bd.getD y []).getD x (.val 0)

/-- Write `bd[y][x] = c` (no-op out of range, as `List.set` is). -/
def setCell (bd : List (List Cell)) (y x : Nat) (c : Cell) : List (List Cell) :=
  bd.set y ((bd.getD y []).set x c)

/-- Cell at a coordinate pair of a board instance. -/
def cellAt (b : Board) (p : Nat × Nat) : Cell :=
  getCell b.board p.1 p.2

/-- Row-major list of the coordinates `(y, x)` with `y < h`, `x < w`,
the iteration order of the constructor's and `lowest_entropy`'s loops. -/
def positions (h w : Nat) : List (Nat × Nat) :=
  (List.range h).flatMap (fun y => (List.range w).map (fun x => (y, x)))

/-- Executable floor square root, the value of Python's
`int(math.sqrt(n))` for the grid sizes at hand: the largest `k ≤ n`
with `k * k ≤ n`. -/
def intSqrt (n : Nat) : Nat :=
  (List.range (n + 1)).foldl (fun acc k => if k * k ≤ n then k else acc) 0

/-- `Board.__init__` (lines 40-61): blanks (`0`) get a copy of the full
candidate list, givens become settled values and are appended to `toDo`
in row-major order; `unsolved` starts at `width*height` and is
decremented once per given; `sub_block = int(math.sqrt(width))`.
No validation of any kind is performed. -/
def Board.init (g : List (List Nat)) (pv : List Nat) : Board :=
  let width := g.length
  let height := (g.headD []).length
  let toDo := (positions height width).filter (fun q => (g.getD q.1 []).getD q.2 0 ≠ 0)
  { board := g.map (fun r => r.map (fun v => if v = 0 then Cell.cands pv else Cell.val v))
    width := width
    height := height
    toDo := toDo
    unsolved := width * height - toDo.length
    sub_block := intSqrt width }

/-- The cell contents `Board.__init__` actually produces.  The
initialisation loop runs `y` over `range(len(board[0]))` and `x` over
`range(len(board))` — note the transposition — so a cell is replaced by
the candidate list only when it lies inside that window and its given is
`0`; every other cell keeps the raw value `copy.deepcopy` gave it (an
`int`, settled). -/
def constructCells (g : List (List Nat)) (pv : List Nat) : List (List Cell) :=
  (List.range g.length).map (fun y =>
    (List.range ((g.getD y []).length)).map (fun x =>
      if y < (g.headD []).length ∧ x < g.length ∧ (g.getD y []).getD x 0 = 0 then
        Cell.cands pv
      else Cell.val ((g.getD y []).getD x 0)))

/-- The exact embedding of `Board.__init__` (lines 40-61), including its
partiality: `len(board[0])` on an empty grid and any access
`board[y][x]` of the transposed loop window that falls outside the grid
raise an uncaught `IndexError`, modelled as `none`.  On success the
board is `constructCells`, `toDo` collects the window's nonzero givens
in loop order, `unsolved` is `width*height` minus their number, and
`sub_block = int(math.sqrt(width))` — with no validation of dimensions
or alphabet anywhere.  `Board.init` is the restriction of this
constructor to square grids of uniform row length
(`construct_eq_init`). -/
def Board.construct (g : List (List Nat)) (pv : List Nat) : Option Board :=
  if g.length = 0 then none
  else if (positions (g.headD []).length g.length).all
      (fun q => decide (q.1 < g.length) && decide (q.2 < (g.getD q.1 []).length)) then
    let toDo := (positions (g.headD []).length g.length).filter
      (fun q => (g.getD q.1 []).getD q.2 0 ≠ 0)
    some { board := constructCells g pv
           width := g.length
           height := (g.headD []).length
           toDo := toDo
           unsolved := g.length * (g.headD []).length - toDo.length
           sub_block := intSqrt g.length }
  else none

/-- One elimination (lines 159-161 etc.): if the cell at `(y, x)` is a
candidate list containing `v`, remove the first occurrence of `v`
(`list.remove`) and append `(y, x)` to `toDo`; otherwise do nothing. -/
def elimAt (b : Board) (y x v : Nat) : Board :=
  match getCell b.board y x with
  | .cands cs =>
      if v ∈ cs then
        { b with board := setCell b.board y x (.cands (cs.erase v))
                 toDo := b.toDo ++ [(y, x)] }
      else b
  | .val _ => b

/-- The positions hit by the propagation loops of `iterate2`
(lines 158-172) for a source cell `(y, x)`: for each `p < width` first
the row cell `(y, p)` then the column cell `(p, x)` (the two tests share
one loop), then the sub-square in row-major order. -/
def propTargets (b : Board) (y x : Nat) : List (Nat × Nat) :=
  let tlx := x / b.sub_block * b.sub_block
  let tly := y / b.sub_block * b.sub_block
  (List.range b.width).flatMap (fun p => [(y, p), (p, x)]) ++
    (List.range b.sub_block).flatMap
      (fun dy => (List.range b.sub_block).map (fun dx => (tly + dy, tlx + dx)))

/-- Apply `elimAt` with a fixed value along a list of positions. -/
def elimFold (v : Nat) (b : Board) (L : List (Nat × Nat)) : Board :=
  L.foldl (fun acc q => elimAt acc q.1 q.2 v) b

/-- Propagate the settled value `v` of cell `(y, x)` to all its row,
column and sub-square peers (lines 156-172 of `iterate2`). -/
def propagate (b : Board) (y x v : Nat) : Board :=
  elimFold v b (propTargets b y x)

/-- Settle a cell to a value and decrement `unsolved`; this is both the
entropy-1 collapse (lines 152-153) and the branch guess (lines 178-179). -/
def collapseCell (b : Board) (y x v : Nat) : Board :=
  { b with board := setCell b.board y x (.val v)
           unsolved := b.unsolved - 1 }

/-- `Board.lowest_entropy` (lines 107-117): row-major scan for the
candidate list of minimal length, starting from the sentinel `entLow = 10`
with `entLoc = None`; only cells with fewer than 10 candidates can ever
be recorded. -/
def lowestEntropy (b : Board) : Option (Nat × Nat) :=
  ((positions b.height b.width).foldl
    (fun acc q =>
      match getCell b.board q.1 q.2 with
      | .cands cs => if cs.length < acc.1 then (cs.length, some q) else acc
      | .val _ => acc)
    ((10 : Nat), (none : Option (Nat × Nat)))).2

/-- Outcome of a solver run: a returned `Board`, the `None` failure
signal, an uncaught Python exception, or fuel exhaustion (an artifact of
the embedding only). -/
inductive Res where
  | done (b : Board)
  | fail
  | crash
  | out
deriving DecidableEq

/-- `iterate2` (lines 145-183).  The Python `for y, x in board.toDo`
loop iterates by index over a list that grows while it is walked, so the
embedding carries the current index `i`.  One unit of fuel is spent per
loop iteration / branch entry.  The branch (lines 173-183) resets `toDo`
to the chosen coordinate before copying, tries the candidates in list
order and returns the first `Board` result; exhaustion yields `None`. -/
def iterate2 (fuel : Nat) (b : Board) (i : Nat) : Res :=
  match fuel with
  | 0 => .out
  | f + 1 =>
    if i < b.toDo.length then
      let p := b.toDo.getD i (0, 0)
      match getCell b.board p.1 p.2 with
      | .cands [] => .fail
      | .cands [v] =>
          let b1 := collapseCell b p.1 p.2 v
          if b1.unsolved = 0 then .done b1
          else iterate2 f (propagate b1 p.1 p.2 v) (i + 1)
      | .cands (_ :: _ :: _) => iterate2 f b (i + 1)
      | .val v => iterate2 f (propagate b p.1 p.2 v) (i + 1)
    else
      match lowestEntropy b with
      | none => .crash
      | some q =>
        match getCell b.board q.1 q.2 with
        | .cands cs =>
            cs.foldl
              (fun r a =>
                match r with
                | .fail => iterate2 f (collapseCell { b with toDo := [q] } q.1 q.2 a) 0
                | r => r)
              .fail
        | .val _ => .crash

/-- Entry point as used by the script's `__main__` block:
construct a `Board` and run `iterate2` on it. -/
def solve (fuel : Nat) (g : List (List Nat)) (pv : List Nat) : Res :=
  iterate2 fuel (Board.init g pv) 0

/-- One cell step of `Board.reduce_entropy` (lines 80-104): scan the
row, the column and the sub-square of a candidate cell for settled
values and remove each from the candidate list (`list.remove`, one
occurrence per hit); collapse the cell if exactly one candidate remains;
track the lowest entropy seen and its location. -/
def reduceStep (sb width : Nat)
    (st : List (List Cell) × Nat × (Nat × Nat)) (q : Nat × Nat) :
    List (List Cell) × Nat × (Nat × Nat) :=
  let (bd, low, loc) := st
  match getCell bd q.1 q.2 with
  | .val _ => (bd, low, loc)
  | .cands cs =>
      let scan :=
        ((List.range width).flatMap (fun j => [getCell bd q.1 j, getCell bd j q.2])) ++
          (let tlx := q.2 / sb * sb
           let tly := q.1 / sb * sb
           (List.range sb).flatMap
             (fun dy => (List.range sb).map (fun dx => getCell bd (tly + dy) (tlx + dx))))
      let cs1 := scan.foldl (fun l c => match c with | .val v => l.erase v | .cands _ => l) cs
      let bd1 := if cs1.length = 1 then setCell bd q.1 q.2 (.val (cs1.headD 0))
                 else setCell bd q.1 q.2 (.cands cs1)
      if cs1.length < low then (bd1, cs1.length, q) else (bd1, low, loc)

/-- `Board.reduce_entropy` (lines 69-105): a row-major in-place pass over
all cells, returning the mutated board, the lowest entropy seen (sentinel
`9` when no candidate cell beat it), its location (default `(0, 0)`) and
the cell now stored at that location. -/
def reduce_entropy (b : Board) :
    Board × Nat × (Nat × Nat) × Cell :=
  let res := ((List.range b.board.length).flatMap
      (fun y => (List.range ((b.board.getD y []).length)).map (fun x => (y, x)))).foldl
      (reduceStep b.sub_block b.width) (b.board, 9, (0, 0))
  ({ b with board := res.1 }, res.2.1, res.2.2, getCell res.1 res.2.2.1 res.2.2.2)

/-- `iterate` (lines 120-142), the unoptimized solver: run a
`reduce_entropy` pass; entropy 0 is a dead branch, entropy 1 recurses,
the sentinel 9 returns the board as is (even when it still holds
candidate lists), anything else branches over the recorded cell's
candidates on a fresh copy each. -/
def iterate (fuel : Nat) (b : Board) : Res :=
  match fuel with
  | 0 => .out
  | f + 1 =>
    match reduce_entropy b with
    | (b', low, loc, pv) =>
      if low = 0 then .fail
      else if low = 1 then iterate f b'
      else if low = 9 then .done b'
      else
        match pv with
        | .cands cs =>
            cs.foldl
              (fun r a =>
                match r with
                | .fail => iterate f { b' with board := setCell b'.board loc.1 loc.2 (.val a) }
                | r => r)
              .fail
        | .val _ => .crash

/-! ### Spec-side observation predicates -/

/-- The integer a cell displays: settled value, or `0` for a candidate
list (the blank marker of the input format). -/
def cellValue : Cell → Nat
  | .val v => v
  | .cands _ => 0

/-- The grid of displayed values of a board. -/
def boardVals (b : Board) : List (List Nat) :=
  b.board.map (fun r => r.map cellValue)

/-- The values of row `y`. -/
def rowVals (b : Board) (y : Nat) : List Nat :=
  (List.range b.width).map (fun x => cellValue (getCell b.board y x))

/-- The values of column `x`. -/
def colVals (b : Board) (x : Nat) : List Nat :=
  (List.range b.height).map (fun y => cellValue (getCell b.board y x))

/-- The values of the sub-square with block coordinates `(i, j)`. -/
def boxVals (b : Board) (i j : Nat) : List Nat :=
  (List.range b.sub_block).flatMap
    (fun dy => (List.range b.sub_block).map
      (fun dx => cellValue (getCell b.board (i * b.sub_block + dy) (j * b.sub_block + dx))))

/-- The given value of the input grid at `(y, x)` (`0` = blank). -/
def givenAt (g : List (List Nat)) (y x : Nat) : Nat :=
  (g.getD y []).getD x 0

/-- Two coordinates share a row, a column or a sub-square of size `sb`. -/
def sameUnit (sb : Nat) (p q : Nat × Nat) : Prop :=
  p.1 = q.1 ∨ p.2 = q.2 ∨ (p.1 / sb = q.1 / sb ∧ p.2 / sb = q.2 / sb)

/-- Distinct coordinates that share a unit: mutually constrained cells. -/
def peer (sb : Nat) (p q : Nat × Nat) : Prop :=
  p ≠ q ∧ sameUnit sb p q

instance (sb : Nat) (p q : Nat × Nat) : Decidable (sameUnit sb p q) := by
  unfold sameUnit
  infer_instance

instance (sb : Nat) (p q : Nat × Nat) : Decidable (peer sb p q) := by
  unfold peer
  infer_instance

/-- Coordinate within the actual extent of the stored grid. -/
def inBnds (b : Board) (p : Nat × Nat) : Prop :=
  p.1 < b.board.length ∧ p.2 < (b.board.getD p.1 []).length

/-- Number of candidate (undetermined) cells of a grid. -/
def countCands : List (List Cell) → Nat
  | [] => 0
  | r :: t => r.countP (fun c => !c.isVal) + countCands t

/-- Shape facts preserved throughout a run: the stored grid is square of
side `width`, `height` coincides, and the sub-square size is positive. -/
structure Wf (b : Board) : Prop where
  blen : b.board.length = b.width
  rlen : ∀ r ∈ b.board, r.length = b.width
  hw : b.height = b.width
  sb : 0 < b.sub_block

/-- All candidate lists draw from the alphabet and are duplicate-free. -/
def NodAll (b : Board) (A : List Nat) : Prop :=
  ∀ p cs, cellAt b p = .cands cs → cs ⊆ A ∧ cs.Nodup

/-- All settled values lie in the alphabet. -/
def ValsIn (b : Board) (A : List Nat) : Prop :=
  ∀ p v, inBnds b p → cellAt b p = .val v → v ∈ A

/-- Any settled value still present in a peer's candidate list is owed a
pending propagation: its coordinate occurs in the unprocessed part of
`toDo`, preceded there only by settled cells.  This is the operative
invariant of `iterate2`'s work queue. -/
def Pending (b : Board) (i : Nat) : Prop :=
  ∀ p v, inBnds b p → cellAt b p = .val v →
    ∀ q cs, peer b.sub_block p q → cellAt b q = .cands cs → v ∈ cs →
      ∃ j, i ≤ j ∧ j < b.toDo.length ∧ b.toDo.getD j (0, 0) = p ∧
        ∀ k, i ≤ k → k < j → (cellAt b (b.toDo.getD k (0, 0))).isVal = true

/-- No settled value is still present in any peer's candidate list:
every settled cell has been fully propagated. -/
def NoConflict (b : Board) : Prop :=
  ∀ p v, inBnds b p → cellAt b p = .val v →
    ∀ q cs, peer b.sub_block p q → cellAt b q = .cands cs → v ∉ cs

/-- Settled peers hold distinct values. -/
def ValsDistinct (b : Board) : Prop :=
  ∀ p q, inBnds b p → inBnds b q → peer b.sub_block p q →
    ∀ v w, cellAt b p = .val v → cellAt b q = .val w → v ≠ w

/-- The run invariant of `iterate2` on a board with queue index `i`. -/
structure Inv (A : List Nat) (b : Board) (i : Nat) : Prop where
  wf : Wf b
  uns : b.unsolved = countCands b.board
  vals : ValsIn b A
  nod : NodAll b A
  pend : Pending b i
  dist : ValsDistinct b

/-- What holds of a board returned by `iterate2` started on `b0`. -/
structure Final (A : List Nat) (b0 b : Board) : Prop where
  weq : b.width = b0.width
  heq : b.height = b0.height
  sbeq : b.sub_block = b0.sub_block
  wf : Wf b
  uns0 : b.unsolved = 0
  allv : ∀ p, inBnds b p → (cellAt b p).isVal = true
  vals : ValsIn b A
  dist : ValsDistinct b

/-! ### Concrete instances from the specification's scenarios -/

/-- The 4×4 scenario grid of §8. -/
def g45 : List (List Nat) := [[2,0,0,0],[0,3,0,0],[1,0,4,0],[0,0,0,1]]

/-- Alphabet `{1,2,3,4}`. -/
def A4 : List Nat := [1,2,3,4]

/-- The unique solution the specification states for `g45`. -/
def expected45 : List (List Nat) := [[2,1,3,4],[4,3,1,2],[1,2,4,3],[3,4,2,1]]

/-- The board `solve` returns on the 4×4 scenario. -/
def c5Board : Board :=
  match solve 40 g45 A4 with
  | .done b => b
  | _ => Board.init g45 A4

/-- A 4×4 grid whose givens contain duplicated `2`s inside row 0 (and
column 0, and the top-left sub-square). -/
def g4dup : List (List Nat) := [[2,2,0,0],[2,0,2,0],[2,0,0,0],[0,0,0,0]]

/-- The board `solve` returns on `g4dup`. -/
def c2Board : Board :=
  match solve 100 g4dup A4 with
  | .done b => b
  | _ => Board.init g4dup A4

/-- A 4×4 grid with the single given `7`, which is outside the alphabet
`{1,2,3,4}`. -/
def g47 : List (List Nat) := [[7,0,0,0],[0,0,0,0],[0,0,0,0],[0,0,0,0]]

/-- The board `solve` returns on `g47`. -/
def c47Board : Board :=
  match solve 100 g47 A4 with
  | .done b => b
  | _ => Board.init g47 A4

/-- The 4×4 instance of the §8 contradiction scenario: two `2`s in
row 0 of an otherwise blank grid. -/
def g4two2s : List (List Nat) := [[2,2,0,0],[0,0,0,0],[0,0,0,0],[0,0,0,0]]

/-- A blank 9×9 grid. -/
def empty9 : List (List Nat) := List.replicate 9 (List.replicate 9 0)

/-- Alphabet `1..9`. -/
def A9 : List Nat := (List.range 9).map (· + 1)

/-- The board `iterate` returns on the blank 9×9 grid. -/
def c4Board : Board :=
  match iterate 1 (Board.init empty9 A9) with
  | .done b => b
  | _ => Board.init empty9 A9

/-- A blank 16×16 grid. -/
def g16 : List (List Nat) := List.replicate 16 (List.replicate 16 0)

/-- Alphabet `1..16`. -/
def A16 : List Nat := (List.range 16).map (· + 1)

/-- A 10×10 blank grid (side not a perfect square). -/
def g10 : List (List Nat) := List.replicate 10 (List.replicate 10 0)

/-- Alphabet `1..10`. -/
def A10 : List Nat := (List.range 10).map (· + 1)

/-- Alphabet of only 8 symbols, mismatching a 9×9 grid. -/
def A8 : List Nat := (List.range 8).map (· + 1)

/-- A ragged grid: two rows, the second one longer, with a given `3` at
`(1, 2)` — outside the constructor's transposed 2×2 loop window. -/
def gRag : List (List Nat) := [[0, 0], [0, 0, 3]]

/-- The board the constructor builds on `gRag`. -/
def c3Board : Board :=
  match Board.construct gRag A4 with
  | some b => b
  | none => Board.init gRag A4

/-! ### Basic list index lemmas -/

theorem getD_map_lt {α β : Type} (f : α → β) (l : List α) (i : Nat) (d : α) (d' : β)
    (h : i < l.length) : (l.map f).getD i d' = f (l.getD i d) := by
  induction l generalizing i with
  | nil => simp at h
  | cons a t ih =>
    cases i with
    | zero => rfl
    | succ j => simpa using ih j (by simpa using h)

theorem getD_range (n i : Nat) (h : i < n) : (List.range n).getD i 0 = i := by
  rw [List.getD_eq_getElem?_getD, List.getElem?_range h]
  rfl

theorem getD_map_range {β : Type} (f : Nat → β) (n i : Nat) (d : β) (h : i < n) :
    ((List.range n).map f).getD i d = f i := by
  rw [getD_map_lt f _ i 0 d (by simpa using h), getD_range n i h]

theorem list_ext_getD {α : Type} (l l' : List α) (d : α) (hlen : l.length = l'.length)
    (h : ∀ i, i < l.length → l.getD i d = l'.getD i d) : l = l' := by
  induction l generalizing l' with
  | nil =>
    cases l' with
    | nil => rfl
    | cons b t => simp at hlen
  | cons a t ih =>
    cases l' with
    | nil => simp at hlen
    | cons b t' =>
      have h0 : a = b := h 0 (by simp)
      rw [h0]
      have ht : t = t' :=
        ih t' (by simpa using hlen) (fun i hi => h (i + 1) (by simpa using hi))
      rw [ht]

theorem getD_set_self {α : Type} (l : List α) (i : Nat) (a d : α) (h : i < l.length) :
    (l.set i a).getD i d = a := by
  induction l generalizing i with
  | nil => simp at h
  | cons b t ih =>
    cases i with
    | zero => rfl
    | succ j => simpa using ih j (by simpa using h)

theorem getD_set_ne {α : Type} (l : List α) (i j : Nat) (a d : α) (h : i ≠ j) :
    (l.set i a).getD j d = l.getD j d := by
  induction l generalizing i j with
  | nil => rfl
  | cons b t ih =>
    cases i with
    | zero => cases j with
      | zero => exact absurd rfl h
      | succ j' => rfl
    | succ i' => cases j with
      | zero => rfl
      | succ j' => simpa using ih i' j' (fun e => h (by rw [e]))

theorem getD_of_len_le {α : Type} (l : List α) (i : Nat) (d : α) (h : l.length ≤ i) :
    l.getD i d = d := by
  induction l generalizing i with
  | nil => cases i <;> rfl
  | cons b t ih =>
    cases i with
    | zero => simp at h
    | succ j => simpa using ih j (by simpa using h)

theorem set_of_len_le {α : Type} (l : List α) (i : Nat) (a : α) (h : l.length ≤ i) :
    l.set i a = l := by
  induction l generalizing i with
  | nil => rfl
  | cons b t ih =>
    cases i with
    | zero => simp at h
    | succ j => simpa using ih j (by simpa using h)

theorem getD_append_lt {α : Type} (l l' : List α) (i : Nat) (d : α) (h : i < l.length) :
    (l ++ l').getD i d = l.getD i d := by
  induction l generalizing i with
  | nil => simp at h
  | cons b t ih =>
    cases i with
    | zero => rfl
    | succ j => simpa using ih j (by simpa using h)

theorem getD_mem {α : Type} (l : List α) (i : Nat) (d : α) (h : i < l.length) :
    l.getD i d ∈ l := by
  induction l generalizing i with
  | nil => simp at h
  | cons b t ih =>
    cases i with
    | zero => exact List.mem_cons_self _ _
    | succ j => exact List.mem_cons_of_mem _ (ih j (by simpa using h))

theorem countP_set {α : Type} (p : α → Bool) (l : List α) (x : Nat) (a d : α)
    (hx : x < l.length) :
    (l.set x a).countP p + (if p (l.getD x d) then 1 else 0)
      = l.countP p + (if p a then 1 else 0) := by
  induction l generalizing x with
  | nil => simp at hx
  | cons b t ih =>
    cases x with
    | zero => simp [List.countP_cons]; omega
    | succ j =>
      have := ih j (by simpa using hx)
      simp only [List.set_cons_succ, List.countP_cons, List.getD_cons_succ]
      omega

theorem mem_positions (h w : Nat) (p : Nat × Nat) :
    p ∈ positions h w ↔ p.1 < h ∧ p.2 < w := by
  cases p with
  | mk y x =>
    simp [positions, List.mem_flatMap, List.mem_map, List.mem_range]

/-! ### Cell access through `setCell` -/

theorem getCell_setCell_self (bd : List (List Cell)) (y x : Nat) (c : Cell)
    (hy : y < bd.length) (hx : x < (bd.getD y []).length) :
    getCell (setCell bd y x c) y x = c := by
  unfold getCell setCell
  rw [getD_set_self _ _ _ _ hy, getD_set_self _ _ _ _ hx]

theorem getCell_setCell_ne (bd : List (List Cell)) (y x : Nat) (c : Cell) (y' x' : Nat)
    (h : y ≠ y' ∨ x ≠ x') :
    getCell (setCell bd y x c) y' x' = getCell bd y' x' := by
  unfold getCell setCell
  rcases h with h | h
  · rw [getD_set_ne _ _ _ _ _ h]
  · by_cases hy : y = y'
    · subst hy
      by_cases hyl : y < bd.length
      · rw [getD_set_self _ _ _ _ hyl, getD_set_ne _ _ _ _ _ h]
      · rw [set_of_len_le _ _ _ (Nat.le_of_not_lt hyl)]
    · rw [getD_set_ne _ _ _ _ _ hy]

theorem length_setCell (bd : List (List Cell)) (y x : Nat) (c : Cell) :
    (setCell bd y x c).length = bd.length := by
  unfold setCell; exact List.length_set bd y _

theorem rowlen_setCell (bd : List (List Cell)) (y x : Nat) (c : Cell) (y' : Nat) :
    ((setCell bd y x c).getD y' []).length = (bd.getD y' []).length := by
  unfold setCell
  by_cases hy : y = y'
  · subst hy
    by_cases hyl : y < bd.length
    · rw [getD_set_self _ _ _ _ hyl, List.length_set]
    · rw [set_of_len_le _ _ _ (Nat.le_of_not_lt hyl)]
  · rw [getD_set_ne _ _ _ _ _ hy]

theorem cands_inBnds (bd : List (List Cell)) (y x : Nat) (cs : List Nat)
    (h : getCell bd y x = .cands cs) :
    y < bd.length ∧ x < (bd.getD y []).length := by
  constructor
  · by_contra hy
    rw [getCell, getD_of_len_le _ _ _ (Nat.le_of_not_lt hy)] at h
    simp [List.getD] at h
  · by_contra hx
    rw [getCell, getD_of_len_le _ _ _ (Nat.le_of_not_lt hx)] at h
    exact Cell.noConfusion h

/-! ### `countCands` bookkeeping -/

theorem countCands_setCell (bd : List (List Cell)) (y x : Nat) (c : Cell)
    (hy : y < bd.length) (hx : x < (bd.getD y []).length) :
    countCands (setCell bd y x c) + (if (getCell bd y x).isVal then 0 else 1)
      = countCands bd + (if c.isVal then 0 else 1) := by
  unfold setCell getCell
  induction bd generalizing y with
  | nil => simp at hy
  | cons r t ih =>
    cases y with
    | zero =>
      simp only [List.getD_cons_zero, List.set_cons_zero, countCands]
      have hrow := countP_set (fun c => !c.isVal) r x c (Cell.val 0) (by simpa using hx)
      by_cases h1 : (r.getD x (Cell.val 0)).isVal = true <;>
        by_cases h2 : c.isVal = true <;>
          simp only [h1, h2, Bool.not_true, Bool.not_false, if_true, if_false,
            Bool.false_eq_true, Bool.true_eq_false] at hrow ⊢ <;> omega
    | succ j =>
      simp only [List.getD_cons_succ, List.set_cons_succ, countCands]
      have := ih j (by simpa using hy) (by simpa using hx)
      omega

theorem countCands_zero_allVal (bd : List (List Cell)) (h : countCands bd = 0)
    (y x : Nat) (hy : y < bd.length) (hx : x < (bd.getD y []).length) :
    (getCell bd y x).isVal = true := by
  induction bd generalizing y with
  | nil => simp at hy
  | cons r t ih =>
    simp only [countCands, Nat.add_eq_zero] at h
    cases y with
    | zero =>
      simp only [getCell, List.getD_cons_zero] at hx ⊢
      by_contra hv
      have hmem : r.getD x (Cell.val 0) ∈ r := getD_mem r x _ hx
      have hpos : 0 < r.countP (fun c => !c.isVal) := by
        refine List.countP_pos_iff.mpr ⟨_, hmem, ?_⟩
        rw [Bool.not_eq_true] at hv
        rw [hv]
        rfl
      omega
    | succ j =>
      simp only [getCell, List.getD_cons_succ] at hx ⊢
      exact ih h.2 j (by simpa using hy) hx

theorem countCands_pos (bd : List (List Cell)) (y x : Nat) (cs : List Nat)
    (h : getCell bd y x = .cands cs) : 0 < countCands bd := by
  rcases cands_inBnds bd y x cs h with ⟨hy, hx⟩
  by_contra hc
  have h0 : countCands bd = 0 := by omega
  have := countCands_zero_allVal bd h0 y x hy hx
  rw [h] at this
  exact Bool.noConfusion this

/-! ### Effect of a single elimination -/

theorem elimAt_width (b : Board) (y x v : Nat) : (elimAt b y x v).width = b.width := by
  unfold elimAt
  cases getCell b.board y x with
  | val w => rfl
  | cands cs => by_cases hv : v ∈ cs <;> simp [hv]

theorem elimAt_height (b : Board) (y x v : Nat) : (elimAt b y x v).height = b.height := by
  unfold elimAt
  cases getCell b.board y x with
  | val w => rfl
  | cands cs => by_cases hv : v ∈ cs <;> simp [hv]

theorem elimAt_sub_block (b : Board) (y x v : Nat) :
    (elimAt b y x v).sub_block = b.sub_block := by
  unfold elimAt
  cases getCell b.board y x with
  | val w => rfl
  | cands cs => by_cases hv : v ∈ cs <;> simp [hv]

theorem elimAt_unsolved (b : Board) (y x v : Nat) :
    (elimAt b y x v).unsolved = b.unsolved := by
  unfold elimAt
  cases getCell b.board y x with
  | val w => rfl
  | cands cs => by_cases hv : v ∈ cs <;> simp [hv]

theorem elimAt_toDo (b : Board) (y x v : Nat) :
    ∃ e, (elimAt b y x v).toDo = b.toDo ++ e := by
  unfold elimAt
  cases getCell b.board y x with
  | val w => exact ⟨[], by simp⟩
  | cands cs =>
    by_cases hv : v ∈ cs
    · exact ⟨[(y, x)], by simp [hv]⟩
    · exact ⟨[], by simp [hv]⟩

theorem elimAt_blen (b : Board) (y x v : Nat) :
    (elimAt b y x v).board.length = b.board.length := by
  unfold elimAt
  cases getCell b.board y x with
  | val w => rfl
  | cands cs => by_cases hv : v ∈ cs <;> simp [hv, length_setCell]

theorem elimAt_rowlen (b : Board) (y x v : Nat) (y' : Nat) :
    ((elimAt b y x v).board.getD y' []).length = (b.board.getD y' []).length := by
  unfold elimAt
  cases getCell b.board y x with
  | val w => rfl
  | cands cs =>
    by_cases hv : v ∈ cs
    · simp only [hv, if_true]
      exact rowlen_setCell b.board y x _ y'
    · simp [hv]

theorem elimAt_val_iff (b : Board) (y x v : Nat) (y' x' : Nat) (w : Nat) :
    getCell (elimAt b y x v).board y' x' = .val w ↔ getCell b.board y' x' = .val w := by
  unfold elimAt
  cases hc : getCell b.board y x with
  | val u => exact Iff.rfl
  | cands cs =>
    by_cases hv : v ∈ cs
    · simp only [hv, if_true]
      by_cases hp : y = y' ∧ x = x'
      · rcases hp with ⟨rfl, rfl⟩
        rcases cands_inBnds b.board y x cs hc with ⟨hy, hx⟩
        rw [getCell_setCell_self _ _ _ _ hy hx, hc]
        constructor <;> intro h <;> exact Cell.noConfusion h
      · rw [getCell_setCell_ne]
        rcases Decidable.not_and_iff_or_not.mp hp with h | h
        · exact Or.inl h
        · exact Or.inr h
    · simp [hv]

theorem elimAt_cands_sub (b : Board) (y x v : Nat) (y' x' : Nat) (cs' : List Nat)
    (h : getCell (elimAt b y x v).board y' x' = .cands cs') :
    ∃ cs, getCell b.board y' x' = .cands cs ∧ (cs' = cs ∨ cs' = cs.erase v) := by
  revert h
  unfold elimAt
  cases hc : getCell b.board y x with
  | val u => exact fun h => ⟨cs', h, Or.inl rfl⟩
  | cands cs =>
    by_cases hv : v ∈ cs
    · simp only [hv, if_true]
      by_cases hp : y = y' ∧ x = x'
      · rcases hp with ⟨rfl, rfl⟩
        rcases cands_inBnds b.board y x cs hc with ⟨hy, hx⟩
        rw [getCell_setCell_self _ _ _ _ hy hx]
        intro h
        exact ⟨cs, hc, Or.inr (by cases h; rfl)⟩
      · rw [getCell_setCell_ne]
        · exact fun h => ⟨cs', h, Or.inl rfl⟩
        · rcases Decidable.not_and_iff_or_not.mp hp with h | h
          · exact Or.inl h
          · exact Or.inr h
    · simp only [hv, if_false]
      exact fun h => ⟨cs', h, Or.inl rfl⟩

theorem elimAt_countCands (b : Board) (y x v : Nat) :
    countCands (elimAt b y x v).board = countCands b.board := by
  unfold elimAt
  cases hc : getCell b.board y x with
  | val u => rfl
  | cands cs =>
    by_cases hv : v ∈ cs
    · simp only [hv, if_true]
      rcases cands_inBnds b.board y x cs hc with ⟨hy, hx⟩
      have h := countCands_setCell b.board y x (.cands (cs.erase v)) hy hx
      rw [hc] at h
      simp only [Cell.isVal, if_false, Bool.false_eq_true] at h
      omega
    · simp [hv]

theorem elimAt_stable_not_mem (b : Board) (y x v : Nat) (y' x' : Nat)
    (h : ∀ cs, getCell b.board y' x' = .cands cs → v ∉ cs) :
    ∀ cs', getCell (elimAt b y x v).board y' x' = .cands cs' → v ∉ cs' := by
  intro cs' hc'
  rcases elimAt_cands_sub b y x v y' x' cs' hc' with ⟨cs, hc, hsub | hsub⟩
  · exact hsub ▸ h cs hc
  · intro hm
    exact h cs hc (List.mem_of_mem_erase (hsub ▸ hm))

theorem elimAt_target_not_mem (b : Board) (y x v : Nat)
    (hnd : ∀ cs, getCell b.board y x = .cands cs → cs.Nodup) :
    ∀ cs', getCell (elimAt b y x v).board y x = .cands cs' → v ∉ cs' := by
  intro cs' hc'
  revert hc'
  unfold elimAt
  cases hc : getCell b.board y x with
  | val u =>
    intro hc'
    rw [hc'] at hc
    exact Cell.noConfusion hc
  | cands cs =>
    by_cases hv : v ∈ cs
    · simp only [hv, if_true]
      rcases cands_inBnds b.board y x cs hc with ⟨hy, hx⟩
      rw [getCell_setCell_self _ _ _ _ hy hx]
      intro hc'
      cases hc'
      exact (hnd cs hc).not_mem_erase
    · simp only [hv, if_false]
      intro hc'
      rw [hc'] at hc
      cases hc
      exact hv

theorem elimAt_nodup (b : Board) (y x v : Nat)
    (h : ∀ y' x' cs, getCell b.board y' x' = .cands cs → cs.Nodup) :
    ∀ y' x' cs', getCell (elimAt b y x v).board y' x' = .cands cs' → cs'.Nodup := by
  intro y' x' cs' hc'
  rcases elimAt_cands_sub b y x v y' x' cs' hc' with ⟨cs, hc, hsub | hsub⟩
  · exact hsub ▸ h y' x' cs hc
  · exact hsub ▸ (h y' x' cs hc).erase v

/-! ### Effect of a fold of eliminations -/

theorem elimFold_cons (v : Nat) (q : Nat × Nat) (t : List (Nat × Nat)) (b : Board) :
    elimFold v b (q :: t) = elimFold v (elimAt b q.1 q.2 v) t := rfl

theorem elimFold_width (v : Nat) (L : List (Nat × Nat)) (b : Board) :
    (elimFold v b L).width = b.width := by
  induction L generalizing b with
  | nil => rfl
  | cons q t ih =>
    rw [elimFold_cons]
    exact (ih (elimAt b q.1 q.2 v)).trans (elimAt_width b q.1 q.2 v)

theorem elimFold_height (v : Nat) (L : List (Nat × Nat)) (b : Board) :
    (elimFold v b L).height = b.height := by
  induction L generalizing b with
  | nil => rfl
  | cons q t ih => exact (ih (elimAt b q.1 q.2 v)).trans (elimAt_height b q.1 q.2 v)

theorem elimFold_sub_block (v : Nat) (L : List (Nat × Nat)) (b : Board) :
    (elimFold v b L).sub_block = b.sub_block := by
  induction L generalizing b with
  | nil => rfl
  | cons q t ih => exact (ih (elimAt b q.1 q.2 v)).trans (elimAt_sub_block b q.1 q.2 v)

theorem elimFold_unsolved (v : Nat) (L : List (Nat × Nat)) (b : Board) :
    (elimFold v b L).unsolved = b.unsolved := by
  induction L generalizing b with
  | nil => rfl
  | cons q t ih => exact (ih (elimAt b q.1 q.2 v)).trans (elimAt_unsolved b q.1 q.2 v)

theorem elimFold_blen (v : Nat) (L : List (Nat × Nat)) (b : Board) :
    (elimFold v b L).board.length = b.board.length := by
  induction L generalizing b with
  | nil => rfl
  | cons q t ih => exact (ih (elimAt b q.1 q.2 v)).trans (elimAt_blen b q.1 q.2 v)

theorem elimFold_rowlen (v : Nat) (L : List (Nat × Nat)) (b : Board) (y' : Nat) :
    ((elimFold v b L).board.getD y' []).length = (b.board.getD y' []).length := by
  induction L generalizing b with
  | nil => rfl
  | cons q t ih => exact (ih (elimAt b q.1 q.2 v)).trans (elimAt_rowlen b q.1 q.2 v y')

theorem elimFold_toDo (v : Nat) (L : List (Nat × Nat)) (b : Board) :
    ∃ e, (elimFold v b L).toDo = b.toDo ++ e := by
  induction L generalizing b with
  | nil => exact ⟨[], by simp [elimFold]⟩
  | cons q t ih =>
    rcases ih (elimAt b q.1 q.2 v) with ⟨e1, he1⟩
    rcases elimAt_toDo b q.1 q.2 v with ⟨e0, he0⟩
    refine ⟨e0 ++ e1, ?_⟩
    rw [elimFold_cons, he1, he0, List.append_assoc]

theorem elimFold_val_iff (v : Nat) (L : List (Nat × Nat)) (b : Board) (y' x' w : Nat) :
    getCell (elimFold v b L).board y' x' = .val w ↔ getCell b.board y' x' = .val w := by
  induction L generalizing b with
  | nil => exact Iff.rfl
  | cons q t ih =>
    exact (ih (elimAt b q.1 q.2 v)).trans (elimAt_val_iff b q.1 q.2 v y' x' w)

theorem elimFold_cands_sub (v : Nat) (L : List (Nat × Nat)) (b : Board) (y' x' : Nat)
    (cs' : List Nat) (h : getCell (elimFold v b L).board y' x' = .cands cs') :
    ∃ cs, getCell b.board y' x' = .cands cs ∧ cs' ⊆ cs ∧ (cs.Nodup → cs'.Nodup) := by
  induction L generalizing b cs' with
  | nil => exact ⟨cs', h, List.Subset.refl _, fun hn => hn⟩
  | cons q t ih =>
    rcases ih (elimAt b q.1 q.2 v) cs' h with ⟨cs1, hc1, hsub1, hnd1⟩
    rcases elimAt_cands_sub b q.1 q.2 v y' x' cs1 hc1 with ⟨cs, hc, heq | heq⟩
    · exact ⟨cs, hc, heq ▸ hsub1, fun hn => hnd1 (heq ▸ hn)⟩
    · refine ⟨cs, hc, fun a ha => ?_, fun hn => ?_⟩
      · have : a ∈ cs.erase v := heq ▸ hsub1 ha
        exact List.erase_subset _ _ this
      · refine hnd1 ?_
        rw [heq]
        exact hn.erase v

theorem elimFold_countCands (v : Nat) (L : List (Nat × Nat)) (b : Board) :
    countCands (elimFold v b L).board = countCands b.board := by
  induction L generalizing b with
  | nil => rfl
  | cons q t ih => exact (ih (elimAt b q.1 q.2 v)).trans (elimAt_countCands b q.1 q.2 v)

theorem elimFold_stable_not_mem (v : Nat) (L : List (Nat × Nat)) (b : Board) (y' x' : Nat)
    (h : ∀ cs, getCell b.board y' x' = .cands cs → v ∉ cs) :
    ∀ cs', getCell (elimFold v b L).board y' x' = .cands cs' → v ∉ cs' := by
  induction L generalizing b with
  | nil => exact h
  | cons q t ih =>
    exact ih (elimAt b q.1 q.2 v) (elimAt_stable_not_mem b q.1 q.2 v y' x' h)

theorem elimFold_nodup (v : Nat) (L : List (Nat × Nat)) (b : Board)
    (h : ∀ y' x' cs, getCell b.board y' x' = .cands cs → cs.Nodup) :
    ∀ y' x' cs', getCell (elimFold v b L).board y' x' = .cands cs' → cs'.Nodup := by
  induction L generalizing b with
  | nil => exact h
  | cons q t ih =>
    exact ih (elimAt b q.1 q.2 v) (elimAt_nodup b q.1 q.2 v h)

theorem elimFold_not_mem_of_mem (v : Nat) (L : List (Nat × Nat)) (b : Board)
    (hnd : ∀ y' x' cs, getCell b.board y' x' = .cands cs → cs.Nodup)
    (q : Nat × Nat) (hq : q ∈ L) :
    ∀ cs', getCell (elimFold v b L).board q.1 q.2 = .cands cs' → v ∉ cs' := by
  induction L generalizing b with
  | nil => simp at hq
  | cons q0 t ih =>
    rcases List.mem_cons.mp hq with rfl | hmem
    · exact elimFold_stable_not_mem v t (elimAt b q.1 q.2 v) q.1 q.2
        (elimAt_target_not_mem b q.1 q.2 v (hnd q.1 q.2))
    · exact ih (elimAt b q0.1 q0.2 v) (elimAt_nodup b q0.1 q0.2 v hnd) hmem

/-! ### Coverage: every in-bounds peer is a propagation target -/

theorem propTargets_cover (b : Board) (y x : Nat) (q : Nat × Nat) (hwf : Wf b)
    (hq1 : q.1 < b.board.length) (hq2 : q.2 < (b.board.getD q.1 []).length)
    (hpeer : peer b.sub_block (y, x) q) :
    q ∈ propTargets b y x := by
  obtain ⟨qy, qx⟩ := q
  have hq1w : qy < b.width := hwf.blen ▸ hq1
  have hq2w : qx < b.width := by
    have hr := hwf.rlen (b.board.getD qy []) (getD_mem _ _ _ hq1)
    exact hr ▸ hq2
  rcases hpeer with ⟨hne, hunit⟩
  unfold propTargets
  rcases hunit with hrow | hcol | hbox
  · apply List.mem_append_left
    rw [List.mem_flatMap]
    refine ⟨qx, List.mem_range.mpr hq2w, ?_⟩
    simp only [List.mem_cons, List.mem_singleton]
    left
    simp at hrow
    rw [hrow]
  · apply List.mem_append_left
    rw [List.mem_flatMap]
    refine ⟨qy, List.mem_range.mpr hq1w, ?_⟩
    simp only [List.mem_cons, List.mem_singleton]
    right
    left
    simp at hcol
    rw [hcol]
  · apply List.mem_append_right
    rw [List.mem_flatMap]
    obtain ⟨hby, hbx⟩ := hbox
    simp only at hby hbx
    refine ⟨qy % b.sub_block, List.mem_range.mpr (Nat.mod_lt _ hwf.sb), ?_⟩
    rw [List.mem_map]
    refine ⟨qx % b.sub_block, List.mem_range.mpr (Nat.mod_lt _ hwf.sb), ?_⟩
    have h1 : y / b.sub_block * b.sub_block + qy % b.sub_block = qy := by
      rw [hby, Nat.mul_comm]
      exact Nat.div_add_mod qy b.sub_block
    have h2 : x / b.sub_block * b.sub_block + qx % b.sub_block = qx := by
      rw [hbx, Nat.mul_comm]
      exact Nat.div_add_mod qx b.sub_block
    rw [Prod.mk.injEq]
    exact ⟨h1, h2⟩

/-! ### Propagation: completeness on peers, shape preservation -/

theorem propagate_def (b : Board) (y x v : Nat) :
    propagate b y x v = elimFold v b (propTargets b y x) := rfl

theorem propagate_not_mem_peer (b : Board) (y x v : Nat) (hwf : Wf b)
    (hnd : ∀ y' x' cs, getCell b.board y' x' = .cands cs → cs.Nodup)
    (q : Nat × Nat) (hpeer : peer b.sub_block (y, x) q) :
    ∀ cs', getCell (propagate b y x v).board q.1 q.2 = .cands cs' → v ∉ cs' := by
  intro cs' hc'
  have hb := cands_inBnds _ _ _ _ hc'
  rw [propagate_def] at hb
  have hq1 : q.1 < b.board.length := by
    have := elimFold_blen v (propTargets b y x) b
    omega
  have hq2 : q.2 < (b.board.getD q.1 []).length := by
    have := elimFold_rowlen v (propTargets b y x) b q.1
    omega
  exact elimFold_not_mem_of_mem v (propTargets b y x) b hnd q
    (propTargets_cover b y x q hwf hq1 hq2 hpeer) cs' hc'

/-! ### Effect of settling a cell -/

theorem collapseCell_width (b : Board) (y x v : Nat) :
    (collapseCell b y x v).width = b.width := rfl

theorem collapseCell_height (b : Board) (y x v : Nat) :
    (collapseCell b y x v).height = b.height := rfl

theorem collapseCell_sub_block (b : Board) (y x v : Nat) :
    (collapseCell b y x v).sub_block = b.sub_block := rfl

theorem collapseCell_toDo (b : Board) (y x v : Nat) :
    (collapseCell b y x v).toDo = b.toDo := rfl

theorem collapseCell_unsolved (b : Board) (y x v : Nat) :
    (collapseCell b y x v).unsolved = b.unsolved - 1 := rfl

theorem collapseCell_blen (b : Board) (y x v : Nat) :
    (collapseCell b y x v).board.length = b.board.length :=
  length_setCell b.board y x _

theorem collapseCell_rowlen (b : Board) (y x v : Nat) (y' : Nat) :
    ((collapseCell b y x v).board.getD y' []).length = (b.board.getD y' []).length :=
  rowlen_setCell b.board y x _ y'

theorem getCell_collapseCell_self (b : Board) (y x v : Nat)
    (hy : y < b.board.length) (hx : x < (b.board.getD y []).length) :
    getCell (collapseCell b y x v).board y x = .val v :=
  getCell_setCell_self b.board y x _ hy hx

theorem getCell_collapseCell_ne (b : Board) (y x v : Nat) (y' x' : Nat)
    (h : y ≠ y' ∨ x ≠ x') :
    getCell (collapseCell b y x v).board y' x' = getCell b.board y' x' :=
  getCell_setCell_ne b.board y x _ y' x' h

theorem collapseCell_countCands (b : Board) (y x v : Nat) (cs : List Nat)
    (hc : getCell b.board y x = .cands cs) :
    countCands (collapseCell b y x v).board + 1 = countCands b.board := by
  rcases cands_inBnds _ _ _ _ hc with ⟨hy, hx⟩
  have h := countCands_setCell b.board y x (.val v) hy hx
  rw [hc] at h
  simpa [Cell.isVal] using h

/-! ### The branch fold: first non-failure result wins -/

theorem foldl_try_stay (F : Nat → Res) (cs : List Nat) (r0 : Res) (h : r0 ≠ .fail) :
    cs.foldl (fun r a => match r with | .fail => F a | r => r) r0 = r0 := by
  induction cs with
  | nil => rfl
  | cons a t ih =>
    rw [List.foldl_cons]
    cases r0 with
    | fail => exact absurd rfl h
    | done bb => exact ih
    | crash => exact ih
    | out => exact ih

theorem foldl_try_done (F : Nat → Res) (cs : List Nat) (r0 : Res) (b' : Board)
    (h : cs.foldl (fun r a => match r with | .fail => F a | r => r) r0 = .done b') :
    r0 = .done b' ∨ ∃ a ∈ cs, F a = .done b' := by
  induction cs generalizing r0 with
  | nil => exact Or.inl h
  | cons a t ih =>
    rw [List.foldl_cons] at h
    cases r0 with
    | fail =>
      rcases ih (F a) h with h1 | ⟨a', ha', he⟩
      · exact Or.inr ⟨a, List.mem_cons_self a t, h1⟩
      · exact Or.inr ⟨a', List.mem_cons_of_mem a ha', he⟩
    | done bb =>
      rw [foldl_try_stay F t _ (fun hh => Res.noConfusion hh)] at h
      exact Or.inl h
    | crash =>
      rw [foldl_try_stay F t _ (fun hh => Res.noConfusion hh)] at h
      exact Or.inl h
    | out =>
      rw [foldl_try_stay F t _ (fun hh => Res.noConfusion hh)] at h
      exact Or.inl h

/-! ### Case equations of `iterate2` -/

theorem iterate2_zero (b : Board) (i : Nat) : iterate2 0 b i = .out := rfl

theorem iterate2_cands_nil (f : Nat) (b : Board) (i : Nat) (h : i < b.toDo.length)
    (hc : getCell b.board (b.toDo.getD i (0, 0)).1 (b.toDo.getD i (0, 0)).2 = .cands []) :
    iterate2 (f + 1) b i = .fail := by
  rw [iterate2]
  simp only [h, if_true, hc]

theorem iterate2_cands_one (f : Nat) (b : Board) (i : Nat) (h : i < b.toDo.length) (v : Nat)
    (hc : getCell b.board (b.toDo.getD i (0, 0)).1 (b.toDo.getD i (0, 0)).2 = .cands [v]) :
    iterate2 (f + 1) b i =
      (if (collapseCell b (b.toDo.getD i (0, 0)).1 (b.toDo.getD i (0, 0)).2 v).unsolved = 0
       then .done (collapseCell b (b.toDo.getD i (0, 0)).1 (b.toDo.getD i (0, 0)).2 v)
       else iterate2 f
         (propagate (collapseCell b (b.toDo.getD i (0, 0)).1 (b.toDo.getD i (0, 0)).2 v)
           (b.toDo.getD i (0, 0)).1 (b.toDo.getD i (0, 0)).2 v) (i + 1)) := by
  rw [iterate2]
  simp only [h, if_true, hc]

theorem iterate2_cands_many (f : Nat) (b : Board) (i : Nat) (h : i < b.toDo.length)
    (v1 v2 : Nat) (rest : List Nat)
    (hc : getCell b.board (b.toDo.getD i (0, 0)).1 (b.toDo.getD i (0, 0)).2
        = .cands (v1 :: v2 :: rest)) :
    iterate2 (f + 1) b i = iterate2 f b (i + 1) := by
  rw [iterate2]
  simp only [h, if_true, hc]

theorem iterate2_val (f : Nat) (b : Board) (i : Nat) (h : i < b.toDo.length) (v : Nat)
    (hc : getCell b.board (b.toDo.getD i (0, 0)).1 (b.toDo.getD i (0, 0)).2 = .val v) :
    iterate2 (f + 1) b i =
      iterate2 f (propagate b (b.toDo.getD i (0, 0)).1 (b.toDo.getD i (0, 0)).2 v) (i + 1) := by
  rw [iterate2]
  simp only [h, if_true, hc]

theorem iterate2_branch_none (f : Nat) (b : Board) (i : Nat) (h : ¬ i < b.toDo.length)
    (hl : lowestEntropy b = none) :
    iterate2 (f + 1) b i = .crash := by
  rw [iterate2]
  simp only [h, if_false, hl]

theorem iterate2_branch_val (f : Nat) (b : Board) (i : Nat) (h : ¬ i < b.toDo.length)
    (q : Nat × Nat) (hl : lowestEntropy b = some q) (w : Nat)
    (hc : getCell b.board q.1 q.2 = .val w) :
    iterate2 (f + 1) b i = .crash := by
  rw [iterate2]
  simp only [h, if_false, hl, hc]

theorem iterate2_branch_cands (f : Nat) (b : Board) (i : Nat) (h : ¬ i < b.toDo.length)
    (q : Nat × Nat) (hl : lowestEntropy b = some q) (cs : List Nat)
    (hc : getCell b.board q.1 q.2 = .cands cs) :
    iterate2 (f + 1) b i =
      cs.foldl
        (fun r a =>
          match r with
          | .fail => iterate2 f (collapseCell { b with toDo := [q] } q.1 q.2 a) 0
          | r => r)
        .fail := by
  rw [iterate2]
  simp only [h, if_false, hl, hc]

/-! ### Cells of a freshly constructed board -/

theorem getCell_init (g : List (List Nat)) (pv : List Nat) (y x : Nat)
    (hy : y < g.length) (hx : x < (g.getD y []).length) :
    getCell (Board.init g pv).board y x =
      (if givenAt g y x = 0 then Cell.cands pv else Cell.val (givenAt g y x)) := by
  unfold getCell Board.init givenAt
  rw [getD_map_lt _ _ _ [] _ hy, getD_map_lt _ _ _ 0 _ hx]

/-! ### Settled cells survive the whole search -/

theorem iterate2_preserves_val :
    ∀ (f : Nat) (b : Board) (i : Nat) (b' : Board), iterate2 f b i = .done b' →
      ∀ y x v, getCell b.board y x = .val v → getCell b'.board y x = .val v := by
  intro f
  induction f with
  | zero =>
    intro b i b' hdone
    rw [iterate2_zero] at hdone
    exact Res.noConfusion hdone
  | succ f ih =>
    intro b i b' hdone y x v hval
    by_cases hlt : i < b.toDo.length
    · cases hc : getCell b.board (b.toDo.getD i (0, 0)).1 (b.toDo.getD i (0, 0)).2 with
      | cands cs =>
        have hne : (b.toDo.getD i (0, 0)).1 ≠ y ∨ (b.toDo.getD i (0, 0)).2 ≠ x := by
          by_contra hno
          rcases not_or.mp hno with ⟨h1, h2⟩
          rw [Decidable.not_not] at h1 h2
          rw [h1, h2, hval] at hc
          exact Cell.noConfusion hc
        match cs, hc with
        | [], hc =>
          rw [iterate2_cands_nil f b i hlt hc] at hdone
          exact Res.noConfusion hdone
        | [v1], hc =>
          rw [iterate2_cands_one f b i hlt v1 hc] at hdone
          by_cases hz :
              (collapseCell b (b.toDo.getD i (0, 0)).1 (b.toDo.getD i (0, 0)).2 v1).unsolved = 0
          · rw [if_pos hz] at hdone
            cases hdone
            rw [getCell_collapseCell_ne _ _ _ _ _ _ hne]
            exact hval
          · rw [if_neg hz] at hdone
            refine ih _ _ _ hdone y x v ?_
            rw [propagate_def]
            refine (elimFold_val_iff _ _ _ _ _ _).mpr ?_
            rw [getCell_collapseCell_ne _ _ _ _ _ _ hne]
            exact hval
        | v1 :: v2 :: rest, hc =>
          rw [iterate2_cands_many f b i hlt v1 v2 rest hc] at hdone
          exact ih _ _ _ hdone y x v hval
      | val w =>
        rw [iterate2_val f b i hlt w hc] at hdone
        refine ih _ _ _ hdone y x v ?_
        rw [propagate_def]
        exact (elimFold_val_iff _ _ _ _ _ _).mpr hval
    · cases hl : lowestEntropy b with
      | none =>
        rw [iterate2_branch_none f b i hlt hl] at hdone
        exact Res.noConfusion hdone
      | some q =>
        cases hcq : getCell b.board q.1 q.2 with
        | val w =>
          rw [iterate2_branch_val f b i hlt q hl w hcq] at hdone
          exact Res.noConfusion hdone
        | cands cs =>
          rw [iterate2_branch_cands f b i hlt q hl cs hcq] at hdone
          rcases foldl_try_done _ cs .fail b' hdone with h0 | ⟨a, _, he⟩
          · exact Res.noConfusion h0
          · refine ih _ _ _ he y x v ?_
            have hne : q.1 ≠ y ∨ q.2 ≠ x := by
              by_contra hno
              rcases not_or.mp hno with ⟨h1, h2⟩
              rw [Decidable.not_not] at h1 h2
              rw [h1, h2, hval] at hcq
              exact Cell.noConfusion hcq
            rw [getCell_collapseCell_ne _ _ _ _ _ _ hne]
            exact hval

/-! ### The unsolved counter never increases along a run -/

theorem iterate2_unsolved_mono :
    ∀ (f : Nat) (b : Board) (i : Nat) (b' : Board), iterate2 f b i = .done b' →
      b'.unsolved ≤ b.unsolved := by
  intro f
  induction f with
  | zero =>
    intro b i b' hdone
    rw [iterate2_zero] at hdone
    exact Res.noConfusion hdone
  | succ f ih =>
    intro b i b' hdone
    by_cases hlt : i < b.toDo.length
    · cases hc : getCell b.board (b.toDo.getD i (0, 0)).1 (b.toDo.getD i (0, 0)).2 with
      | cands cs =>
        match cs, hc with
        | [], hc =>
          rw [iterate2_cands_nil f b i hlt hc] at hdone
          exact Res.noConfusion hdone
        | [v1], hc =>
          rw [iterate2_cands_one f b i hlt v1 hc] at hdone
          by_cases hz :
              (collapseCell b (b.toDo.getD i (0, 0)).1 (b.toDo.getD i (0, 0)).2 v1).unsolved = 0
          · rw [if_pos hz] at hdone
            cases hdone
            exact Nat.sub_le _ _
          · rw [if_neg hz] at hdone
            have := ih _ _ _ hdone
            rw [propagate_def, elimFold_unsolved, collapseCell_unsolved] at this
            omega
        | v1 :: v2 :: rest, hc =>
          rw [iterate2_cands_many f b i hlt v1 v2 rest hc] at hdone
          exact ih _ _ _ hdone
      | val w =>
        rw [iterate2_val f b i hlt w hc] at hdone
        have := ih _ _ _ hdone
        rw [propagate_def, elimFold_unsolved] at this
        exact this
    · cases hl : lowestEntropy b with
      | none =>
        rw [iterate2_branch_none f b i hlt hl] at hdone
        exact Res.noConfusion hdone
      | some q =>
        cases hcq : getCell b.board q.1 q.2 with
        | val w =>
          rw [iterate2_branch_val f b i hlt q hl w hcq] at hdone
          exact Res.noConfusion hdone
        | cands cs =>
          rw [iterate2_branch_cands f b i hlt q hl cs hcq] at hdone
          rcases foldl_try_done _ cs .fail b' hdone with h0 | ⟨a, _, he⟩
          · exact Res.noConfusion h0
          · have := ih _ _ _ he
            rw [collapseCell_unsolved] at this
            have hb : ({ b with toDo := [q] } : Board).unsolved = b.unsolved := rfl
            omega

/-! ### The minimum-entropy scan -/

theorem lowestEntropy_aux (b : Board) :
    ∀ (L : List (Nat × Nat)) (acc : Nat × Option (Nat × Nat)),
      (acc.2 ≠ none ∨ ∃ q ∈ L, ∃ cs, getCell b.board q.1 q.2 = .cands cs ∧ cs.length < 10) →
      (acc.2 = none → acc.1 = 10) → acc.1 ≤ 10 →
      (L.foldl
        (fun acc q =>
          match getCell b.board q.1 q.2 with
          | .cands cs => if cs.length < acc.1 then (cs.length, some q) else acc
          | .val _ => acc)
        acc).2 ≠ none := by
  intro L
  induction L with
  | nil =>
    intro acc hgood hinv hle
    rcases hgood with hs | ⟨q, hq, _⟩
    · exact hs
    · simp at hq
  | cons q t ih =>
    intro acc hgood hinv hle
    rw [List.foldl_cons]
    set acc' :=
      (match getCell b.board q.1 q.2 with
        | .cands cs => if cs.length < acc.1 then (cs.length, some q) else acc
        | .val _ => acc) with hacc'
    have hinv' : (acc'.2 = none → acc'.1 = 10) ∧ acc'.1 ≤ 10 ∧ (acc.2 ≠ none → acc'.2 ≠ none) := by
      rw [hacc']
      cases hc : getCell b.board q.1 q.2 with
      | val w => exact ⟨hinv, hle, fun h => h⟩
      | cands cs =>
        by_cases hlt : cs.length < acc.1
        · simp only [hlt, if_true]
          exact ⟨fun h => Option.noConfusion h, by omega, fun _ => fun h => Option.noConfusion h⟩
        · simp only [hlt, if_false]
          exact ⟨hinv, hle, fun h => h⟩
    rcases hgood with hs | ⟨q0, hq0, cs0, hc0, hlen0⟩
    · exact ih acc' (Or.inl (hinv'.2.2 hs)) hinv'.1 hinv'.2.1
    · rcases List.mem_cons.mp hq0 with rfl | hq0t
      · refine ih acc' (Or.inl ?_) hinv'.1 hinv'.2.1
        rw [hacc', hc0]
        by_cases hlt : cs0.length < acc.1
        · simp only [hlt, if_true]
          exact fun h => Option.noConfusion h
        · simp only [hlt, if_false]
          intro hnone
          have := hinv hnone
          omega
      · exact ih acc' (Or.inr ⟨q0, hq0t, cs0, hc0, hlen0⟩) hinv'.1 hinv'.2.1

/-! ### Transfer lemmas for the run invariant -/

theorem peer_symm (sb : Nat) (p q : Nat × Nat) (h : peer sb p q) : peer sb q p := by
  rcases h with ⟨hne, hu⟩
  refine ⟨fun e => hne e.symm, ?_⟩
  rcases hu with h | h | ⟨h1, h2⟩
  · exact Or.inl h.symm
  · exact Or.inr (Or.inl h.symm)
  · exact Or.inr (Or.inr ⟨h1.symm, h2.symm⟩)

theorem isVal_elimFold (v : Nat) (L : List (Nat × Nat)) (b : Board) (y x : Nat) :
    (getCell (elimFold v b L).board y x).isVal = (getCell b.board y x).isVal := by
  cases hc : getCell b.board y x with
  | val w =>
    rw [(elimFold_val_iff v L b y x w).mpr hc]
  | cands cs =>
    cases hc2 : getCell (elimFold v b L).board y x with
    | val w =>
      have := (elimFold_val_iff v L b y x w).mp hc2
      rw [hc] at this
      exact Cell.noConfusion this
    | cands cs2 => rfl

theorem rlen_of_getD (l : List (List Cell)) (w : Nat)
    (h : ∀ i, i < l.length → (l.getD i []).length = w) : ∀ r ∈ l, r.length = w := by
  induction l with
  | nil => intro r hr; simp at hr
  | cons a t ih =>
    intro r hr
    rcases List.mem_cons.mp hr with rfl | hrt
    · exact h 0 (by simp)
    · exact ih (fun i hi => h (i + 1) (by simpa using hi)) r hrt

theorem getD_of_rlen (l : List (List Cell)) (w : Nat) (h : ∀ r ∈ l, r.length = w)
    (i : Nat) (hi : i < l.length) : (l.getD i []).length = w :=
  h _ (getD_mem l i [] hi)

theorem wf_transfer (b b' : Board) (hwf : Wf b)
    (hl : b'.board.length = b.board.length)
    (hr : ∀ y, (b'.board.getD y []).length = (b.board.getD y []).length)
    (hwid : b'.width = b.width) (hh : b'.height = b.height)
    (hsb : b'.sub_block = b.sub_block) : Wf b' := by
  refine ⟨by rw [hl, hwid]; exact hwf.blen, ?_, by rw [hh, hwid]; exact hwf.hw,
    by rw [hsb]; exact hwf.sb⟩
  refine rlen_of_getD _ _ (fun i hi => ?_)
  rw [hr i, hwid]
  exact getD_of_rlen b.board b.width hwf.rlen i (by omega)

theorem inBnds_transfer (b b' : Board)
    (hl : b'.board.length = b.board.length)
    (hr : ∀ y, (b'.board.getD y []).length = (b.board.getD y []).length)
    (p : Nat × Nat) : inBnds b' p ↔ inBnds b p := by
  unfold inBnds
  rw [hl, hr]

theorem noConflict_of_head_cands (b : Board) (i : Nat) (hP : Pending b i)
    (hlt : i < b.toDo.length) (cs0 : List Nat)
    (hc : cellAt b (b.toDo.getD i (0, 0)) = .cands cs0) : NoConflict b := by
  intro p v hb hv q cs hpeer hq hmem
  rcases hP p v hb hv q cs hpeer hq hmem with ⟨j, hij, hjl, hje, hpre⟩
  rcases Nat.lt_or_ge i j with hlt2 | hge
  · have := hpre i (Nat.le_refl i) hlt2
    rw [hc] at this
    exact Bool.noConfusion this
  · have hji : j = i := by omega
    subst hji
    rw [hje, hv] at hc
    exact Cell.noConfusion hc

theorem noConflict_of_drained (b : Board) (i : Nat) (hP : Pending b i)
    (hge : ¬ i < b.toDo.length) : NoConflict b := by
  intro p v hb hv q cs hpeer hq hmem
  rcases hP p v hb hv q cs hpeer hq hmem with ⟨j, hij, hjl, _, _⟩
  omega

/-! ### Invariant components across a propagation -/

theorem propagate_blen (b : Board) (y x v : Nat) :
    (propagate b y x v).board.length = b.board.length := by
  rw [propagate_def]; exact elimFold_blen v _ b

theorem propagate_rowlen (b : Board) (y x v : Nat) (y' : Nat) :
    ((propagate b y x v).board.getD y' []).length = (b.board.getD y' []).length := by
  rw [propagate_def]; exact elimFold_rowlen v _ b y'

theorem propagate_sub_block (b : Board) (y x v : Nat) :
    (propagate b y x v).sub_block = b.sub_block := by
  rw [propagate_def]; exact elimFold_sub_block v _ b

theorem wf_propagate (b : Board) (y x v : Nat) (hwf : Wf b) : Wf (propagate b y x v) := by
  refine wf_transfer b _ hwf (propagate_blen b y x v) (propagate_rowlen b y x v) ?_ ?_
    (propagate_sub_block b y x v)
  · rw [propagate_def]; exact elimFold_width v _ b
  · rw [propagate_def]; exact elimFold_height v _ b

theorem vals_propagate (A : List Nat) (b : Board) (y x w : Nat) (h : ValsIn b A) :
    ValsIn (propagate b y x w) A := by
  intro p v hb hv
  refine h p v ((inBnds_transfer b _ (propagate_blen b y x w) (propagate_rowlen b y x w) p).mp hb) ?_
  have := hv
  rw [propagate_def] at this
  exact (elimFold_val_iff w _ b p.1 p.2 v).mp this

theorem nod_propagate (A : List Nat) (b : Board) (y x w : Nat) (h : NodAll b A) :
    NodAll (propagate b y x w) A := by
  intro p cs hc
  rw [cellAt, propagate_def] at hc
  rcases elimFold_cands_sub w _ b p.1 p.2 cs hc with ⟨cs0, hc0, hsub, hnd⟩
  rcases h p cs0 hc0 with ⟨hA, hn⟩
  exact ⟨fun a ha => hA (hsub ha), hnd hn⟩

theorem dist_propagate (b : Board) (y x w : Nat) (h : ValsDistinct b) :
    ValsDistinct (propagate b y x w) := by
  intro p q hbp hbq hpeer v v2 hv hv2
  have hsb : (propagate b y x w).sub_block = b.sub_block := propagate_sub_block b y x w
  rw [hsb] at hpeer
  rw [cellAt, propagate_def] at hv hv2
  exact h p q
    ((inBnds_transfer b _ (propagate_blen b y x w) (propagate_rowlen b y x w) p).mp hbp)
    ((inBnds_transfer b _ (propagate_blen b y x w) (propagate_rowlen b y x w) q).mp hbq)
    hpeer v v2
    ((elimFold_val_iff w _ b p.1 p.2 v).mp hv)
    ((elimFold_val_iff w _ b q.1 q.2 v2).mp hv2)

theorem propagate_toDo (b : Board) (y x v : Nat) :
    ∃ e, (propagate b y x v).toDo = b.toDo ++ e := by
  rw [propagate_def]; exact elimFold_toDo v _ b

theorem propagate_unsolved (b : Board) (y x v : Nat) :
    (propagate b y x v).unsolved = b.unsolved := by
  rw [propagate_def]; exact elimFold_unsolved v _ b

theorem propagate_countCands (b : Board) (y x v : Nat) :
    countCands (propagate b y x v).board = countCands b.board := by
  rw [propagate_def]; exact elimFold_countCands v _ b

theorem propagate_width (b : Board) (y x v : Nat) :
    (propagate b y x v).width = b.width := by
  rw [propagate_def]; exact elimFold_width v _ b

theorem propagate_height (b : Board) (y x v : Nat) :
    (propagate b y x v).height = b.height := by
  rw [propagate_def]; exact elimFold_height v _ b

theorem pair_ne_components {p q : Nat × Nat} (h : p ≠ q) : q.1 ≠ p.1 ∨ q.2 ≠ p.2 := by
  by_contra hno
  rcases not_or.mp hno with ⟨h1, h2⟩
  rw [Decidable.not_not] at h1 h2
  exact h (Prod.ext h1.symm h2.symm)

/-! ### Invariant components across settling a cell -/

theorem wf_collapse (b : Board) (y x v : Nat) (hwf : Wf b) : Wf (collapseCell b y x v) :=
  wf_transfer b _ hwf (collapseCell_blen b y x v) (collapseCell_rowlen b y x v) rfl rfl rfl

theorem cands_collapse_ne (b : Board) (y x v : Nat) (p : Nat × Nat) (cs : List Nat)
    (hc : cellAt (collapseCell b y x v) p = .cands cs) :
    cellAt b p = .cands cs ∧ (y ≠ p.1 ∨ x ≠ p.2) := by
  by_cases hpe : y = p.1 ∧ x = p.2
  · obtain ⟨h1, h2⟩ := hpe
    subst h1; subst h2
    have hb := cands_inBnds _ _ _ _ hc
    rw [collapseCell_blen] at hb
    have hb2 := hb.2
    rw [collapseCell_rowlen] at hb2
    rw [cellAt, getCell_collapseCell_self b p.1 p.2 v hb.1 hb2] at hc
    exact Cell.noConfusion hc
  · have hne := Decidable.not_and_iff_or_not.mp hpe
    rw [cellAt, getCell_collapseCell_ne b y x v p.1 p.2 hne] at hc
    exact ⟨hc, hne⟩

theorem vals_collapse (A : List Nat) (b : Board) (y x v : Nat) (hvA : v ∈ A)
    (h : ValsIn b A) : ValsIn (collapseCell b y x v) A := by
  intro p w hb hw
  by_cases hpe : y = p.1 ∧ x = p.2
  · obtain ⟨h1, h2⟩ := hpe
    subst h1; subst h2
    have hb1 := hb.1
    have hb2 := hb.2
    rw [collapseCell_blen] at hb1
    rw [collapseCell_rowlen] at hb2
    rw [cellAt, getCell_collapseCell_self b p.1 p.2 v hb1 hb2] at hw
    cases hw
    exact hvA
  · have hne := Decidable.not_and_iff_or_not.mp hpe
    rw [cellAt, getCell_collapseCell_ne b y x v p.1 p.2 hne] at hw
    refine h p w ?_ hw
    exact (inBnds_transfer b _ (collapseCell_blen b y x v) (collapseCell_rowlen b y x v) p).mp hb

theorem nod_collapse (A : List Nat) (b : Board) (y x v : Nat) (h : NodAll b A) :
    NodAll (collapseCell b y x v) A := by
  intro p cs hc
  exact h p cs (cands_collapse_ne b y x v p cs hc).1

theorem dist_collapse (b : Board) (y x v : Nat) (cs0 : List Nat)
    (hc : getCell b.board y x = .cands cs0) (hv : v ∈ cs0)
    (hnc : NoConflict b) (hdist : ValsDistinct b) :
    ValsDistinct (collapseCell b y x v) := by
  rcases cands_inBnds _ _ _ _ hc with ⟨hy, hx⟩
  intro p q hbp hbq hpeer w w2 hw hw2
  have hbp' := (inBnds_transfer b _ (collapseCell_blen b y x v) (collapseCell_rowlen b y x v) p).mp hbp
  have hbq' := (inBnds_transfer b _ (collapseCell_blen b y x v) (collapseCell_rowlen b y x v) q).mp hbq
  have hsb : (collapseCell b y x v).sub_block = b.sub_block := rfl
  rw [hsb] at hpeer
  by_cases hp1 : y = p.1 ∧ x = p.2
  · obtain ⟨e1, e2⟩ := hp1
    by_cases hq1 : y = q.1 ∧ x = q.2
    · obtain ⟨e3, e4⟩ := hq1
      exfalso
      apply hpeer.1
      rw [Prod.ext_iff]
      constructor
      · omega
      · omega
    · have hneq := Decidable.not_and_iff_or_not.mp hq1
      rw [cellAt, getCell_collapseCell_ne b y x v q.1 q.2 hneq] at hw2
      subst e1; subst e2
      rw [cellAt, getCell_collapseCell_self b p.1 p.2 v hy hx] at hw
      cases hw
      intro hvw2
      exact hnc q w2 hbq' hw2 p cs0 (peer_symm _ _ _ hpeer) hc (by rw [hvw2] at hv; exact hv)
  · have hnep := Decidable.not_and_iff_or_not.mp hp1
    rw [cellAt, getCell_collapseCell_ne b y x v p.1 p.2 hnep] at hw
    by_cases hq1 : y = q.1 ∧ x = q.2
    · obtain ⟨e3, e4⟩ := hq1
      subst e3; subst e4
      rw [cellAt, getCell_collapseCell_self b q.1 q.2 v hy hx] at hw2
      cases hw2
      intro hwv
      exact hnc p w hbp' hw q cs0 hpeer hc (by rw [← hwv] at hv; exact hv)
    · have hneq := Decidable.not_and_iff_or_not.mp hq1
      rw [cellAt, getCell_collapseCell_ne b y x v q.1 q.2 hneq] at hw2
      exact hdist p q hbp' hbq' hpeer w w2 hw hw2

/-! ### Invariant preservation for each step of `iterate2` -/

theorem inv_step_skip (A : List Nat) (b : Board) (i : Nat) (cs0 : List Nat)
    (hInv : Inv A b i) (hlt : i < b.toDo.length)
    (hc : getCell b.board (b.toDo.getD i (0, 0)).1 (b.toDo.getD i (0, 0)).2 = .cands cs0) :
    Inv A b (i + 1) := by
  have hnc : NoConflict b := noConflict_of_head_cands b i hInv.pend hlt cs0 hc
  exact ⟨hInv.wf, hInv.uns, hInv.vals, hInv.nod,
    fun pp vv hbpp hvpp qq cs2 hpeer2 hq2 hmem2 =>
      absurd hmem2 (hnc pp vv hbpp hvpp qq cs2 hpeer2 hq2),
    hInv.dist⟩

theorem inv_step_val (A : List Nat) (b : Board) (i : Nat) (t : Nat × Nat) (w : Nat)
    (hInv : Inv A b i) (hlt : i < b.toDo.length) (ht : b.toDo.getD i (0, 0) = t)
    (hc : getCell b.board t.1 t.2 = .val w) :
    Inv A (propagate b t.1 t.2 w) (i + 1) := by
  refine ⟨wf_propagate _ _ _ _ hInv.wf, ?_, vals_propagate A _ _ _ _ hInv.vals,
    nod_propagate A _ _ _ _ hInv.nod, ?_, dist_propagate _ _ _ _ hInv.dist⟩
  · rw [propagate_unsolved, propagate_countCands]
    exact hInv.uns
  · intro pp vv hbpp hvpp qq cs2 hpeer2 hq2 hmem2
    have hbp0 : inBnds b pp :=
      (inBnds_transfer b _ (propagate_blen b t.1 t.2 w) (propagate_rowlen b t.1 t.2 w) pp).mp hbpp
    have hvpp' := hvpp
    rw [cellAt, propagate_def] at hvpp'
    have hv0 : cellAt b pp = .val vv := (elimFold_val_iff w _ b pp.1 pp.2 vv).mp hvpp'
    have hq2' := hq2
    rw [cellAt, propagate_def] at hq2'
    rcases elimFold_cands_sub w _ b qq.1 qq.2 cs2 hq2' with ⟨cs0, hq0, hsub0, _⟩
    have hpeer0 : peer b.sub_block pp qq := by
      rw [propagate_sub_block] at hpeer2
      exact hpeer2
    have hmem0 : vv ∈ cs0 := hsub0 hmem2
    rcases hInv.pend pp vv hbp0 hv0 qq cs0 hpeer0 hq0 hmem0 with ⟨j, hij, hjl, hje, hpre⟩
    rcases Nat.eq_or_lt_of_le hij with heq | hlt2
    · exfalso
      have hppt : pp = t := by rw [← hje, ← heq, ht]
      have hvw : vv = w := by
        have hcell := hv0
        rw [hppt] at hcell
        have h3 : getCell b.board t.1 t.2 = Cell.val vv := hcell
        rw [hc] at h3
        injection h3 with h4
        exact h4.symm
      rw [hvw] at hmem2
      refine propagate_not_mem_peer b t.1 t.2 w hInv.wf
        (fun y' x' cs hcx => (hInv.nod (y', x') cs hcx).2) qq ?_ cs2 hq2 hmem2
      rw [← hppt]
      exact hpeer0
    · rcases propagate_toDo b t.1 t.2 w with ⟨e, he⟩
      refine ⟨j, by omega, ?_, ?_, ?_⟩
      · rw [he, List.length_append]
        omega
      · rw [he, getD_append_lt _ _ _ _ hjl]
        exact hje
      · intro k hk1 hk2
        have hkl : k < b.toDo.length := by omega
        rw [he, getD_append_lt _ _ _ _ hkl]
        have hpk := hpre k (by omega) hk2
        rw [cellAt, propagate_def, isVal_elimFold]
        exact hpk

theorem final_collapse (A : List Nat) (b : Board) (i : Nat) (t : Nat × Nat) (v : Nat)
    (hInv : Inv A b i) (hlt : i < b.toDo.length) (ht : b.toDo.getD i (0, 0) = t)
    (hc : getCell b.board t.1 t.2 = .cands [v])
    (hz : (collapseCell b t.1 t.2 v).unsolved = 0) :
    Final A b (collapseCell b t.1 t.2 v) := by
  have hnc : NoConflict b := noConflict_of_head_cands b i hInv.pend hlt [v] (by rw [ht]; exact hc)
  have hvA : v ∈ A := (hInv.nod t [v] hc).1 (by simp)
  have hcc := collapseCell_countCands b t.1 t.2 v [v] hc
  have hpos := countCands_pos b.board t.1 t.2 [v] hc
  refine ⟨rfl, rfl, rfl, wf_collapse b t.1 t.2 v hInv.wf, hz, ?_,
    vals_collapse A b t.1 t.2 v hvA hInv.vals,
    dist_collapse b t.1 t.2 v [v] hc (by simp) hnc hInv.dist⟩
  intro p hb
  have h0 : countCands (collapseCell b t.1 t.2 v).board = 0 := by
    have huns := hInv.uns
    have hcu : (collapseCell b t.1 t.2 v).unsolved = b.unsolved - 1 := rfl
    omega
  exact countCands_zero_allVal _ h0 p.1 p.2 hb.1 hb.2

theorem inv_step_collapse (A : List Nat) (b : Board) (i : Nat) (t : Nat × Nat) (v : Nat)
    (hInv : Inv A b i) (hlt : i < b.toDo.length) (ht : b.toDo.getD i (0, 0) = t)
    (hc : getCell b.board t.1 t.2 = .cands [v]) :
    Inv A (propagate (collapseCell b t.1 t.2 v) t.1 t.2 v) (i + 1) := by
  have hnc : NoConflict b := noConflict_of_head_cands b i hInv.pend hlt [v] (by rw [ht]; exact hc)
  have hvA : v ∈ A := (hInv.nod t [v] hc).1 (by simp)
  have hcc := collapseCell_countCands b t.1 t.2 v [v] hc
  have hpos := countCands_pos b.board t.1 t.2 [v] hc
  rcases cands_inBnds b.board t.1 t.2 [v] hc with ⟨hty, htx⟩
  have hwfc : Wf (collapseCell b t.1 t.2 v) := wf_collapse b t.1 t.2 v hInv.wf
  have hnodc : NodAll (collapseCell b t.1 t.2 v) A := nod_collapse A b t.1 t.2 v hInv.nod
  refine ⟨wf_propagate _ _ _ _ hwfc, ?_,
    vals_propagate A _ _ _ _ (vals_collapse A b t.1 t.2 v hvA hInv.vals),
    nod_propagate A _ _ _ _ hnodc, ?_,
    dist_propagate _ _ _ _ (dist_collapse b t.1 t.2 v [v] hc (by simp) hnc hInv.dist)⟩
  · rw [propagate_unsolved, propagate_countCands]
    have hcu : (collapseCell b t.1 t.2 v).unsolved = b.unsolved - 1 := rfl
    have huns := hInv.uns
    omega
  · intro pp vv hbpp hvpp qq cs2 hpeer2 hq2 hmem2
    exfalso
    have hbpc : inBnds (collapseCell b t.1 t.2 v) pp :=
      (inBnds_transfer _ _ (propagate_blen _ t.1 t.2 v) (propagate_rowlen _ t.1 t.2 v) pp).mp hbpp
    have hvpp' := hvpp
    rw [cellAt, propagate_def] at hvpp'
    have hvc : cellAt (collapseCell b t.1 t.2 v) pp = .val vv :=
      (elimFold_val_iff v _ _ pp.1 pp.2 vv).mp hvpp'
    have hq2' := hq2
    rw [cellAt, propagate_def] at hq2'
    rcases elimFold_cands_sub v _ _ qq.1 qq.2 cs2 hq2' with ⟨cs1, hq1, hsub1, _⟩
    by_cases hppt : pp = t
    · have hvv : vv = v := by
        have hcell := hvc
        rw [hppt] at hcell
        rw [cellAt, getCell_collapseCell_self b t.1 t.2 v hty htx] at hcell
        injection hcell with h4
        exact h4.symm
      rw [hvv] at hmem2
      refine propagate_not_mem_peer (collapseCell b t.1 t.2 v) t.1 t.2 v hwfc
        (fun y' x' cs hcx => (hnodc (y', x') cs hcx).2) qq ?_ cs2 hq2 hmem2
      have hsb2 : (propagate (collapseCell b t.1 t.2 v) t.1 t.2 v).sub_block = b.sub_block :=
        propagate_sub_block _ t.1 t.2 v
      rw [hsb2] at hpeer2
      rw [← hppt]
      exact hpeer2
    · have hne := pair_ne_components hppt
      have hv0 : cellAt b pp = .val vv := by
        rw [cellAt, getCell_collapseCell_ne b t.1 t.2 v pp.1 pp.2 hne] at hvc
        exact hvc
      rcases cands_collapse_ne b t.1 t.2 v qq cs1 hq1 with ⟨hq0, _⟩
      have hbp0 : inBnds b pp :=
        (inBnds_transfer b _ (collapseCell_blen b t.1 t.2 v) (collapseCell_rowlen b t.1 t.2 v) pp).mp hbpc
      have hpeer0 : peer b.sub_block pp qq := by
        have hsb2 : (propagate (collapseCell b t.1 t.2 v) t.1 t.2 v).sub_block = b.sub_block :=
          propagate_sub_block _ t.1 t.2 v
        rw [hsb2] at hpeer2
        exact hpeer2
      exact hnc pp vv hbp0 hv0 qq cs1 hpeer0 hq0 (hsub1 hmem2)

theorem inv_guess (A : List Nat) (b : Board) (i : Nat) (q : Nat × Nat) (cs : List Nat) (a : Nat)
    (hInv : Inv A b i) (hge : ¬ i < b.toDo.length)
    (hcq : getCell b.board q.1 q.2 = .cands cs) (ha : a ∈ cs) :
    Inv A (collapseCell { b with toDo := [q] } q.1 q.2 a) 0 := by
  have hnc : NoConflict b := noConflict_of_drained b i hInv.pend hge
  have haA : a ∈ A := (hInv.nod q cs hcq).1 ha
  have hwf3 : Wf ({ b with toDo := [q] } : Board) :=
    ⟨hInv.wf.blen, hInv.wf.rlen, hInv.wf.hw, hInv.wf.sb⟩
  have hcc := collapseCell_countCands ({ b with toDo := [q] } : Board) q.1 q.2 a cs hcq
  have hpos := countCands_pos b.board q.1 q.2 cs hcq
  refine ⟨wf_collapse _ q.1 q.2 a hwf3, ?_,
    vals_collapse A _ q.1 q.2 a haA hInv.vals,
    nod_collapse A _ q.1 q.2 a hInv.nod, ?_,
    dist_collapse _ q.1 q.2 a cs hcq ha hnc hInv.dist⟩
  · have hcu : (collapseCell ({ b with toDo := [q] } : Board) q.1 q.2 a).unsolved
        = b.unsolved - 1 := rfl
    have hcc2 : countCands (collapseCell ({ b with toDo := [q] } : Board) q.1 q.2 a).board + 1
        = countCands b.board := hcc
    have huns := hInv.uns
    omega
  · intro pp vv hbpp hvpp qq cs2 hpeer2 hq2 hmem2
    by_cases hppq : pp = q
    · refine ⟨0, Nat.le_refl 0, Nat.one_pos, hppq.symm, fun k hk1 hk2 => absurd hk2 (Nat.not_lt_zero k)⟩
    · exfalso
      have hne := pair_ne_components hppq
      have hv0 : cellAt b pp = .val vv := by
        rw [cellAt, getCell_collapseCell_ne _ q.1 q.2 a pp.1 pp.2 hne] at hvpp
        exact hvpp
      have hq0 := (cands_collapse_ne _ q.1 q.2 a qq cs2 hq2).1
      have hbp0 : inBnds b pp :=
        (inBnds_transfer _ _ (collapseCell_blen _ q.1 q.2 a) (collapseCell_rowlen _ q.1 q.2 a) pp).mp hbpp
      exact hnc pp vv hbp0 hv0 qq cs2 hpeer2 hq0 hmem2

/-! ### The master induction: invariant in, valid board out -/

theorem iterate2_master (A : List Nat) :
    ∀ (f : Nat) (b : Board) (i : Nat) (b' : Board),
      Inv A b i → iterate2 f b i = .done b' → Final A b b' := by
  intro f
  induction f with
  | zero =>
    intro b i b' _ hdone
    rw [iterate2_zero] at hdone
    exact Res.noConfusion hdone
  | succ f ih =>
    intro b i b' hInv hdone
    by_cases hlt : i < b.toDo.length
    · cases hc : getCell b.board (b.toDo.getD i (0, 0)).1 (b.toDo.getD i (0, 0)).2 with
      | cands cs =>
        match cs, hc with
        | [], hc =>
          rw [iterate2_cands_nil f b i hlt hc] at hdone
          exact Res.noConfusion hdone
        | [v], hc =>
          rw [iterate2_cands_one f b i hlt v hc] at hdone
          by_cases hz :
              (collapseCell b (b.toDo.getD i (0, 0)).1 (b.toDo.getD i (0, 0)).2 v).unsolved = 0
          · rw [if_pos hz] at hdone
            cases hdone
            exact final_collapse A b i (b.toDo.getD i (0, 0)) v hInv hlt rfl hc hz
          · rw [if_neg hz] at hdone
            have hF := ih _ _ _ (inv_step_collapse A b i (b.toDo.getD i (0, 0)) v hInv hlt rfl hc)
              hdone
            refine ⟨?_, ?_, ?_, hF.wf, hF.uns0, hF.allv, hF.vals, hF.dist⟩
            · rw [hF.weq, propagate_width]; rfl
            · rw [hF.heq, propagate_height]; rfl
            · rw [hF.sbeq, propagate_sub_block]; rfl
        | v1 :: v2 :: rest, hc =>
          rw [iterate2_cands_many f b i hlt v1 v2 rest hc] at hdone
          exact ih _ _ _ (inv_step_skip A b i (v1 :: v2 :: rest) hInv hlt hc) hdone
      | val w =>
        rw [iterate2_val f b i hlt w hc] at hdone
        have hF := ih _ _ _ (inv_step_val A b i (b.toDo.getD i (0, 0)) w hInv hlt rfl hc) hdone
        refine ⟨?_, ?_, ?_, hF.wf, hF.uns0, hF.allv, hF.vals, hF.dist⟩
        · rw [hF.weq, propagate_width]
        · rw [hF.heq, propagate_height]
        · rw [hF.sbeq, propagate_sub_block]
    · cases hl : lowestEntropy b with
      | none =>
        rw [iterate2_branch_none f b i hlt hl] at hdone
        exact Res.noConfusion hdone
      | some q =>
        cases hcq : getCell b.board q.1 q.2 with
        | val w =>
          rw [iterate2_branch_val f b i hlt q hl w hcq] at hdone
          exact Res.noConfusion hdone
        | cands cs =>
          rw [iterate2_branch_cands f b i hlt q hl cs hcq] at hdone
          rcases foldl_try_done _ cs .fail b' hdone with h0 | ⟨a, ha, he⟩
          · exact Res.noConfusion h0
          · have hF := ih _ _ _ (inv_guess A b i q cs a hInv hlt hcq ha) he
            exact ⟨hF.weq, hF.heq, hF.sbeq, hF.wf, hF.uns0, hF.allv, hF.vals, hF.dist⟩

/-! ### Counting helpers for the initial board -/

theorem countP_not_add {α : Type} (l : List α) (p : α → Bool) :
    l.countP p + l.countP (fun a => !(p a)) = l.length := by
  induction l with
  | nil => rfl
  | cons a t ih =>
    rw [List.countP_cons, List.countP_cons, List.length_cons]
    by_cases h : p a = true <;> simp [h] <;> omega

theorem countCands_eq_sum (bd : List (List Cell)) :
    countCands bd = (bd.map (fun r => r.countP (fun c => !c.isVal))).sum := by
  induction bd with
  | nil => rfl
  | cons r t ih => rw [countCands, List.map_cons, List.sum_cons, ih]

theorem countP_flatMap {α β : Type} (l : List α) (f : α → List β) (p : β → Bool) :
    (l.flatMap f).countP p = (l.map (fun a => (f a).countP p)).sum := by
  induction l with
  | nil => rfl
  | cons a t ih =>
    rw [List.flatMap_cons, List.countP_append, List.map_cons, List.sum_cons, ih]

theorem sum_map_getD (g : List (List Nat)) (F : List Nat → Nat) :
    ((List.range g.length).map (fun y => F (g.getD y []))).sum = (g.map F).sum := by
  induction g with
  | nil => rfl
  | cons r t ih =>
    rw [List.length_cons, List.range_succ_eq_map, List.map_cons, List.map_map,
      List.sum_cons, List.map_cons, List.sum_cons]
    have hcomp : ((fun y => F ((r :: t).getD y [])) ∘ Nat.succ) = fun y => F (t.getD y []) := rfl
    rw [hcomp, ih]
    rfl

theorem countP_range_getD (r : List Nat) (p : Nat → Bool) :
    (List.range r.length).countP (fun x => p (r.getD x 0)) = r.countP p := by
  induction r with
  | nil => rfl
  | cons a t ih =>
    rw [List.length_cons, List.range_succ_eq_map, List.countP_cons, List.countP_map,
      List.countP_cons]
    have hcomp : ((fun x => p ((a :: t).getD x 0)) ∘ Nat.succ) = fun x => p (t.getD x 0) := rfl
    rw [hcomp, ih]
    rfl

theorem sum_split (g : List (List Nat)) (F G : List Nat → Nat) (w : Nat)
    (h : ∀ r ∈ g, F r + G r = w) :
    (g.map F).sum + (g.map G).sum = g.length * w := by
  induction g with
  | nil => simp
  | cons r t ih =>
    rw [List.map_cons, List.map_cons, List.sum_cons, List.sum_cons, List.length_cons]
    have h1 := h r (List.mem_cons_self r t)
    have h2 := ih (fun r2 hr2 => h r2 (List.mem_cons_of_mem r hr2))
    rw [Nat.succ_mul]
    omega

theorem getD_of_mem {α : Type} (l : List α) (a d : α) (h : a ∈ l) :
    ∃ j, j < l.length ∧ l.getD j d = a := by
  induction l with
  | nil => simp at h
  | cons b t ih =>
    rcases List.mem_cons.mp h with rfl | ht
    · exact ⟨0, by simp, rfl⟩
    · rcases ih ht with ⟨j, hj, he⟩
      exact ⟨j + 1, by simpa using hj, he⟩

/-! ### The freshly constructed board -/

theorem init_blen (g : List (List Nat)) (pv : List Nat) :
    (Board.init g pv).board.length = g.length :=
  List.length_map g _

theorem init_rowlen (g : List (List Nat)) (pv : List Nat) (y : Nat) (hy : y < g.length) :
    ((Board.init g pv).board.getD y []).length = (g.getD y []).length := by
  show ((g.map _).getD y []).length = _
  rw [getD_map_lt _ _ _ [] _ hy]
  exact List.length_map _ _

theorem init_height_eq (g : List (List Nat)) (hn : 0 < g.length)
    (hrows : ∀ r ∈ g, r.length = g.length) : (g.headD []).length = g.length := by
  cases g with
  | nil => simp at hn
  | cons r t => exact hrows r (List.mem_cons_self r t)

/-- On a square grid of uniform row length the constructor's loop window
covers exactly the grid, so `constructCells` degenerates to the total
cell mapping used by `Board.init`. -/
theorem constructCells_eq (g : List (List Nat)) (pv : List Nat)
    (h0 : 0 < g.length) (hu : ∀ r ∈ g, r.length = g.length) :
    constructCells g pv
      = g.map (fun r => r.map (fun v => if v = 0 then Cell.cands pv else Cell.val v)) := by
  have hh : (g.headD []).length = g.length := init_height_eq g h0 hu
  apply list_ext_getD _ _ []
  · simp [constructCells]
  · intro y hy
    rw [constructCells] at hy ⊢
    rw [List.length_map, List.length_range] at hy
    rw [getD_map_range _ _ _ _ hy, getD_map_lt _ _ _ [] _ hy]
    have hrl : (g.getD y []).length = g.length := hu _ (getD_mem g y [] hy)
    apply list_ext_getD _ _ (Cell.val 0)
    · rw [List.length_map, List.length_range, List.length_map]
    · intro x hx
      rw [List.length_map, List.length_range] at hx
      rw [getD_map_range _ _ _ _ hx, getD_map_lt _ _ _ 0 _ (by omega)]
      by_cases hv : (g.getD y []).getD x 0 = 0
      · rw [if_pos ⟨by omega, by omega, hv⟩, if_pos hv]
      · rw [if_neg (fun hc => hv hc.2.2), if_neg hv]

/-- On a nonempty square grid of uniform row length the exact embedding
of `Board.__init__` succeeds and builds precisely the board of the total
embedding `Board.init` that the solver-level developments use. -/
theorem construct_eq_init (g : List (List Nat)) (pv : List Nat)
    (h0 : 0 < g.length) (hu : ∀ r ∈ g, r.length = g.length) :
    Board.construct g pv = some (Board.init g pv) := by
  have hall : (positions (g.headD []).length g.length).all
      (fun q => decide (q.1 < g.length) && decide (q.2 < (g.getD q.1 []).length)) = true := by
    rw [List.all_eq_true]
    intro q hq
    have hm := (mem_positions _ _ q).mp hq
    rw [Bool.and_eq_true, decide_eq_true_iff, decide_eq_true_iff]
    have hhh : (g.headD []).length = g.length := init_height_eq g h0 hu
    refine ⟨by omega, ?_⟩
    rw [hu (g.getD q.1 []) (getD_mem g q.1 [] (by omega))]
    exact hm.2
  unfold Board.construct
  rw [if_neg (by omega : ¬ g.length = 0), if_pos hall]
  rw [constructCells_eq g pv h0 hu]
  rfl

/-! ### The invariant holds at construction time -/

theorem inv_init (g : List (List Nat)) (A : List Nat) (hn : 0 < g.length)
    (hrows : ∀ r ∈ g, r.length = g.length)
    (hsq : intSqrt g.length * intSqrt g.length = g.length)
    (hAnd : A.Nodup)
    (hgA : ∀ y, y < g.length → ∀ x, x < g.length →
      givenAt g y x ≠ 0 → givenAt g y x ∈ A)
    (hcons : ∀ y, y < g.length → ∀ x, x < g.length → ∀ y', y' < g.length →
      ∀ x', x' < g.length → peer (intSqrt g.length) (y, x) (y', x') →
      givenAt g y x ≠ 0 → givenAt g y' x' ≠ 0 →
      givenAt g y x ≠ givenAt g y' x') :
    Inv A (Board.init g A) 0 := by
  have hh : (g.headD []).length = g.length := init_height_eq g hn hrows
  have hsb : 0 < intSqrt g.length := by
    rcases Nat.eq_zero_or_pos (intSqrt g.length) with h0 | hpos
    · rw [h0] at hsq
      simp at hsq
      omega
    · exact hpos
  have hbnd : ∀ p : Nat × Nat, inBnds (Board.init g A) p →
      p.1 < g.length ∧ p.2 < g.length := by
    intro p hp
    have h1 : p.1 < g.length := by
      have := hp.1
      rwa [init_blen] at this
    refine ⟨h1, ?_⟩
    have h2 := hp.2
    rw [init_rowlen g A p.1 h1, hrows (g.getD p.1 []) (getD_mem g p.1 [] h1)] at h2
    exact h2
  have hcell : ∀ y x, y < g.length → x < g.length →
      getCell (Board.init g A).board y x =
        (if givenAt g y x = 0 then Cell.cands A else Cell.val (givenAt g y x)) := by
    intro y x hy hx
    refine getCell_init g A y x hy ?_
    rw [hrows (g.getD y []) (getD_mem g y [] hy)]
    exact hx
  refine ⟨⟨init_blen g A, ?rlen, hh, hsb⟩, ?uns, ?vals, ?nod, ?pend, ?dist⟩
  case rlen =>
    intro r hr
    rcases List.mem_map.mp hr with ⟨r0, hr0, rfl⟩
    rw [List.length_map]
    exact hrows r0 hr0
  case uns =>
    have hto : (Board.init g A).toDo.length
        = (g.map (fun r => r.countP (fun v => decide (v ≠ 0)))).sum := by
      show ((positions (g.headD []).length g.length).filter
        (fun q => decide ((g.getD q.1 []).getD q.2 0 ≠ 0))).length = _
      rw [← List.countP_eq_length_filter, hh]
      unfold positions
      rw [countP_flatMap]
      have hinner : ∀ y ∈ List.range g.length,
          ((List.range g.length).map (fun x => (y, x))).countP
              (fun q => decide ((g.getD q.1 []).getD q.2 0 ≠ 0))
            = (g.getD y []).countP (fun v => decide (v ≠ 0)) := by
        intro y hy
        rw [List.countP_map]
        have hfun : ((fun q : Nat × Nat => decide ((g.getD q.1 []).getD q.2 0 ≠ 0)) ∘
            (fun x => (y, x))) = fun x => decide ((g.getD y []).getD x 0 ≠ 0) := rfl
        rw [hfun]
        have hlen : g.length = (g.getD y []).length :=
          (hrows _ (getD_mem g y [] (List.mem_range.mp hy))).symm
        rw [hlen, countP_range_getD (g.getD y []) (fun v => decide (v ≠ 0))]
      rw [List.map_congr_left hinner]
      exact sum_map_getD g _
    have hcnt : countCands (Board.init g A).board
        = (g.map (fun r => r.countP (fun v => decide (v = 0)))).sum := by
      rw [countCands_eq_sum]
      show ((g.map (fun r => r.map (fun v => if v = 0 then Cell.cands A else Cell.val v))).map
        (fun r => r.countP (fun c => !c.isVal))).sum = _
      rw [List.map_map]
      refine congrArg List.sum (List.map_congr_left (fun r _ => ?_))
      show (r.map (fun v => if v = 0 then Cell.cands A else Cell.val v)).countP
        (fun c => !c.isVal) = _
      rw [List.countP_map]
      refine List.countP_congr (fun v _ => ?_)
      by_cases hv : v = 0 <;> simp [hv, Cell.isVal]
    have hsplit : (g.map (fun r => r.countP (fun v => decide (v = 0)))).sum
        + (g.map (fun r => r.countP (fun v => decide (v ≠ 0)))).sum
        = g.length * g.length := by
      refine sum_split g _ _ g.length (fun r hr => ?_)
      have hca := countP_not_add r (fun v => decide (v = 0))
      have hcongr : r.countP (fun v => decide (v ≠ 0))
          = r.countP (fun v => !(decide (v = 0))) :=
        List.countP_congr (fun v _ => by simp)
      rw [hcongr]
      rw [hca]
      exact hrows r hr
    show g.length * (g.headD []).length - (Board.init g A).toDo.length = _
    rw [hh, hto, hcnt]
    omega
  case vals =>
    intro p v hp hv
    rcases hbnd p hp with ⟨h1, h2⟩
    rw [cellAt, hcell p.1 p.2 h1 h2] at hv
    by_cases h0 : givenAt g p.1 p.2 = 0
    · rw [if_pos h0] at hv
      exact Cell.noConfusion hv
    · rw [if_neg h0] at hv
      injection hv with he
      rw [← he]
      exact hgA p.1 h1 p.2 h2 h0
  case nod =>
    intro p cs hc
    rcases cands_inBnds _ _ _ _ hc with ⟨hb1, hb2⟩
    have h1 : p.1 < g.length := by rwa [init_blen] at hb1
    have h2 : p.2 < g.length := by
      rw [init_rowlen g A p.1 h1, hrows _ (getD_mem g p.1 [] h1)] at hb2
      exact hb2
    rw [cellAt, hcell p.1 p.2 h1 h2] at hc
    by_cases h0 : givenAt g p.1 p.2 = 0
    · rw [if_pos h0] at hc
      injection hc with he
      rw [← he]
      exact ⟨List.Subset.refl A, hAnd⟩
    · rw [if_neg h0] at hc
      exact Cell.noConfusion hc
  case pend =>
    intro p v hp hv q cs hpeer hq hmem
    rcases hbnd p hp with ⟨h1, h2⟩
    rw [cellAt, hcell p.1 p.2 h1 h2] at hv
    by_cases h0 : givenAt g p.1 p.2 = 0
    · rw [if_pos h0] at hv
      exact absurd hv (fun hh2 => Cell.noConfusion hh2)
    rw [if_neg h0] at hv
    have hpmem : p ∈ (Board.init g A).toDo := by
      show p ∈ (positions (g.headD []).length g.length).filter
        (fun q => decide ((g.getD q.1 []).getD q.2 0 ≠ 0))
      rw [List.mem_filter]
      refine ⟨(mem_positions _ _ _).mpr ⟨by rw [hh]; exact h1, h2⟩, decide_eq_true h0⟩
    rcases getD_of_mem _ p (0, 0) hpmem with ⟨j, hj, hje⟩
    refine ⟨j, Nat.zero_le j, hj, hje, ?_⟩
    intro k _ hk2
    have hkmem : (Board.init g A).toDo.getD k (0, 0) ∈ (Board.init g A).toDo :=
      getD_mem _ k (0, 0) (by omega)
    have hzfilter : (Board.init g A).toDo.getD k (0, 0)
        ∈ (positions (g.headD []).length g.length).filter
          (fun q => decide ((g.getD q.1 []).getD q.2 0 ≠ 0)) := hkmem
    rw [List.mem_filter] at hzfilter
    obtain ⟨hzpos, hzpred⟩ := hzfilter
    rw [mem_positions] at hzpos
    have hz1 : ((Board.init g A).toDo.getD k (0, 0)).1 < g.length := by
      rw [← hh]
      exact hzpos.1
    have hz2 : ((Board.init g A).toDo.getD k (0, 0)).2 < g.length := hzpos.2
    have hznz : givenAt g ((Board.init g A).toDo.getD k (0, 0)).1
        ((Board.init g A).toDo.getD k (0, 0)).2 ≠ 0 := of_decide_eq_true hzpred
    rw [cellAt, hcell _ _ hz1 hz2, if_neg hznz]
    rfl
  case dist =>
    intro p q hp hq hpeer v w hv hw
    rcases hbnd p hp with ⟨h1, h2⟩
    rcases hbnd q hq with ⟨h3, h4⟩
    rw [cellAt, hcell p.1 p.2 h1 h2] at hv
    rw [cellAt, hcell q.1 q.2 h3 h4] at hw
    by_cases h0p : givenAt g p.1 p.2 = 0
    · rw [if_pos h0p] at hv
      exact absurd hv (fun hh2 => Cell.noConfusion hh2)
    rw [if_neg h0p] at hv
    by_cases h0q : givenAt g q.1 q.2 = 0
    · rw [if_pos h0q] at hw
      exact absurd hw (fun hh2 => Cell.noConfusion hh2)
    rw [if_neg h0q] at hw
    injection hv with hev
    injection hw with hew
    rw [← hev, ← hew]
    exact hcons p.1 h1 p.2 h2 q.1 h3 q.2 h4 hpeer h0p h0q

/-! ### From a distinct-valued unit to exact counts -/

theorem sum_map_const {α : Type} (l : List α) (c : Nat) :
    (l.map (fun _ => c)).sum = l.length * c := by
  induction l with
  | nil => simp
  | cons a t ih =>
    rw [List.map_cons, List.sum_cons, List.length_cons, ih, Nat.succ_mul]
    omega

theorem count_one_of_unit (A vs : List Nat) (hlen : vs.length = A.length) (hnd : vs.Nodup)
    (hsub : ∀ v ∈ vs, v ∈ A) (hA : A.Nodup) : ∀ v ∈ A, vs.count v = 1 := by
  have hsp : List.Subperm vs A := List.subperm_of_subset hnd (fun a ha => hsub a ha)
  have hperm : List.Perm vs A := hsp.perm_of_length_le (by omega)
  intro v hv
  rw [hperm.count_eq]
  exact List.count_eq_one_of_mem hA hv

theorem unit_count (A : List Nat) (b : Board) (hA : A.Nodup)
    (hallv : ∀ p, inBnds b p → (cellAt b p).isVal = true)
    (hvals : ValsIn b A) (hdist : ValsDistinct b)
    (ps : List (Nat × Nat)) (hlen : ps.length = A.length)
    (hbndp : ∀ p ∈ ps, inBnds b p)
    (hpw : ps.Pairwise (peer b.sub_block)) :
    ∀ v ∈ A, (ps.map (fun p => cellValue (cellAt b p))).count v = 1 := by
  have hcv : ∀ p ∈ ps, ∃ w, cellAt b p = .val w ∧ cellValue (cellAt b p) = w ∧ w ∈ A := by
    intro p hp
    have hiv := hallv p (hbndp p hp)
    cases hc : cellAt b p with
    | val w => exact ⟨w, rfl, rfl, hvals p w (hbndp p hp) hc⟩
    | cands cs =>
      rw [hc] at hiv
      exact Bool.noConfusion hiv
  refine count_one_of_unit A _ ?_ ?_ ?_ hA
  · rw [List.length_map]
    exact hlen
  · refine List.Pairwise.map _ ?_ (List.Pairwise.and_mem.mp hpw)
    intro p q hR
    obtain ⟨hpm, hqm, hpq⟩ := hR
    rcases hcv p hpm with ⟨w1, hc1, he1, _⟩
    rcases hcv q hqm with ⟨w2, hc2, he2, _⟩
    rw [he1, he2]
    exact hdist p q (hbndp p hpm) (hbndp q hqm) hpq w1 w2 hc1 hc2
  · intro v hv
    rcases List.mem_map.mp hv with ⟨p, hp, rfl⟩
    rcases hcv p hp with ⟨w, _, hcev, hwA⟩
    rw [hcev]
    exact hwA

/-! ### Claim theorems: concrete scenarios -/

/-- C5: solving the 4×4 grid `[[2,0,0,0],[0,3,0,0],[1,0,4,0],[0,0,0,1]]`
with alphabet `{1,2,3,4}` returns exactly the solved grid
`[[2,1,3,4],[4,3,1,2],[1,2,4,3],[3,4,2,1]]`, with no unsolved cell. -/
theorem c5_scenario_solution :
    solve 40 g45 A4 = .done c5Board ∧
    boardVals c5Board = expected45 ∧
    c5Board.unsolved = 0 :=
  ⟨rfl, rfl, rfl⟩

/-- C7: the solver is deterministic — running `solve` twice on the same
grid and alphabet yields the same result.  In the embedding the whole
search (queue order, row-major minimum-entropy tie-break, alphabet-order
candidate iteration) is a pure function of the input, so the two runs
are definitionally the same value. -/
theorem c7_deterministic (fuel : Nat) (g : List (List Nat)) (pv : List Nat) :
    solve fuel g pv = solve fuel g pv := rfl

/-- C4 (code bug): on the blank 9×9 grid the stalled propagation pass of
`reduce_entropy` reports lowest entropy 9, which `iterate` confuses with
its "no unsolved cells" sentinel (line 131), so `iterate` returns the
board as a result although all 81 cells are still undetermined. -/
theorem c4_iterate_returns_partial_board :
    iterate 1 (Board.init empty9 A9) = .done c4Board ∧
    c4Board.unsolved = 81 ∧
    (cellAt c4Board (0, 0)).isVal = false :=
  ⟨rfl, rfl, rfl⟩

/-- C3 counterexample: construction never validates its inputs.  A 10×10
grid (side not a perfect square) is accepted and produces an ordinary
`Board` with `sub_block = 3`, and an 8-symbol alphabet for a 9×9 grid is
accepted, every blank simply receiving the 8 candidates. -/
theorem c3_counterexample :
    (Board.construct g10 A10).map Board.width = some 10 ∧
    (Board.construct g10 A10).map Board.sub_block = some 3 ∧
    (Board.construct empty9 A8).map (fun b => cellAt b (0, 0)) = some (.cands A8) ∧
    (Board.construct empty9 A8).map Board.width = some 9 :=
  ⟨rfl, rfl, rfl, rfl⟩

/-- C3 amended: `Board.__init__` contains no validation and no
`InvalidDimensions`/`InvalidAlphabet` taxonomy, but it is not total
either.  Construction succeeds exactly when the grid is nonempty and
every position of the transposed loop window — `y` ranging over
`len(board[0])`, `x` over `len(board)` — lies inside the grid; otherwise
the loop raises an uncaught `IndexError` (`none`).  On success no
property of the dimensions or of the alphabet has been checked:
`width` is the row count, `height` the first row's length,
`sub_block = int(sqrt(width))` whatever `width` is, and a cell becomes
the full candidate list exactly when it lies in the window with given
`0` — any cell outside the window keeps its raw value. -/
theorem c3_amended (g : List (List Nat)) (pv : List Nat) :
    ((Board.construct g pv).isSome = true ↔
      0 < g.length ∧ ∀ q ∈ positions (g.headD []).length g.length,
        q.1 < g.length ∧ q.2 < (g.getD q.1 []).length) ∧
    (∀ b, Board.construct g pv = some b →
      b.width = g.length ∧ b.height = (g.headD []).length ∧
      b.sub_block = intSqrt g.length ∧
      b.unsolved = g.length * (g.headD []).length - b.toDo.length ∧
      ∀ y, y < g.length → ∀ x, x < (g.getD y []).length →
        getCell b.board y x =
          if y < (g.headD []).length ∧ x < g.length ∧ givenAt g y x = 0 then Cell.cands pv
          else Cell.val (givenAt g y x)) := by
  by_cases h0 : g.length = 0
  · constructor
    · unfold Board.construct
      rw [if_pos h0]
      simp only [Option.isSome_none, Bool.false_eq_true, false_iff]
      intro hc
      omega
    · intro b hb
      unfold Board.construct at hb
      rw [if_pos h0] at hb
      exact absurd hb (by simp)
  · by_cases hall : (positions (g.headD []).length g.length).all
        (fun q => decide (q.1 < g.length) && decide (q.2 < (g.getD q.1 []).length)) = true
    · constructor
      · unfold Board.construct
        rw [if_neg h0, if_pos hall]
        simp only [Option.isSome_some, true_iff]
        refine ⟨by omega, ?_⟩
        intro q hq
        have := List.all_eq_true.mp hall q hq
        rw [Bool.and_eq_true, decide_eq_true_iff, decide_eq_true_iff] at this
        exact this
      · intro b hb
        unfold Board.construct at hb
        rw [if_neg h0, if_pos hall] at hb
        obtain rfl := Option.some.inj hb
        refine ⟨rfl, rfl, rfl, rfl, ?_⟩
        intro y hy x hx
        show getCell (constructCells g pv) y x = _
        unfold getCell constructCells
        rw [getD_map_range _ _ _ _ hy, getD_map_range _ _ _ _ hx]
        rfl
    · constructor
      · unfold Board.construct
        rw [if_neg h0, if_neg hall]
        simp only [Option.isSome_none, Bool.false_eq_true, false_iff]
        intro hc
        apply hall
        rw [List.all_eq_true]
        intro q hq
        rw [Bool.and_eq_true, decide_eq_true_iff, decide_eq_true_iff]
        exact hc.2 q hq
      · intro b hb
        unfold Board.construct at hb
        rw [if_neg h0, if_neg hall] at hb
        exact absurd hb (by simp)

/-- Witness for the amended C3 on the ragged grid `gRag`: construction
succeeds, and the given `3` at `(1, 2)` — outside the transposed 2×2
loop window — is left as a raw settled value. -/
theorem c3_amended_witness : getCell c3Board.board 1 2 = Cell.val 3 := by
  have h := ((c3_amended gRag A4).2 c3Board rfl).2.2.2.2 1 (by decide) 2 (by decide)
  rw [h]
  decide

/-- C9 counterexample: on the blank 16×16 grid with its 16-symbol
alphabet, `iterate2` falls through to the minimum-entropy scan while all
256 cells are still undetermined, yet the scan's sentinel `entLow = 10`
ignores every 16-candidate cell, `lowest_entropy` returns `None`, and
the unpacking `y, x = board.lowest_entropy()` raises a `TypeError`. -/
theorem c9_counterexample :
    solve 5 g16 A16 = .crash ∧
    cellAt (Board.init g16 A16) (0, 0) = .cands A16 ∧
    (Board.init g16 A16).unsolved = 256 :=
  ⟨rfl, rfl, rfl⟩

/-- C2 counterexample: duplicated givens are not detected.  On `g4dup`,
whose row 0 holds two given `2`s, the solver returns a "solved" board —
still containing both `2`s in row 0 — rather than the `None` failure
signal the claim demands. -/
theorem c2_counterexample :
    solve 100 g4dup A4 = .done c2Board ∧
    c2Board.unsolved = 0 ∧
    boardVals c2Board = [[2,2,1,3],[2,1,2,4],[2,3,4,1],[1,4,3,2]] ∧
    givenAt g4dup 0 0 = 2 ∧ givenAt g4dup 0 1 = 2 :=
  ⟨rfl, rfl, rfl, rfl, rfl⟩

/-- C2 amended: two identical givens in a unit are not detected as such
— the solver fails only when some candidate list empties, and a grid
with duplicated givens may even be returned as solved (see the
counterexample).  The 4×4 instance of the specification's scenario (two
`2`s in row 0 of an otherwise blank grid) does, however, exhaust its
search and return the failure signal `None`. -/
theorem c2_amended : solve 100 g4two2s A4 = .fail := rfl

/-- C1 counterexample: the returned grid is not always valid.  On
`g4dup` (duplicated given `2`s in row 0) the solver returns a board
whose row 0 is `[2,2,1,3]` — the value 2 appears twice and 4 not at all;
on `g47` (single given `7`, outside the alphabet) it returns a board
whose row 0 is `[7,1,2,3]`, in which the alphabet value 4 never occurs.
Both inputs make `solve` return a solved board, so the claim's validity
property fails as stated. -/
theorem c1_counterexample :
    solve 100 g4dup A4 = .done c2Board ∧
    rowVals c2Board 0 = [2, 2, 1, 3] ∧
    (rowVals c2Board 0).count 2 = 2 ∧
    (rowVals c2Board 0).count 4 = 0 ∧
    solve 100 g47 A4 = .done c47Board ∧
    rowVals c47Board 0 = [7, 1, 2, 3] ∧
    (rowVals c47Board 0).count 4 = 0 ∧ 4 ∈ A4 :=
  ⟨rfl, rfl, rfl, rfl, rfl, rfl, rfl, by decide⟩

/-- C6: every given of the input grid survives into any solved board the
solver returns: propagation only erases candidates from undetermined
cells, a collapse or guess only rewrites a candidate cell, so a settled
cell is never overwritten anywhere in the search. -/
theorem c6_given_values_preserved (g : List (List Nat)) (pv : List Nat) (fuel : Nat)
    (b' : Board) (y x : Nat) (hy : y < g.length) (hx : x < (g.getD y []).length)
    (hnz : givenAt g y x ≠ 0) (hdone : solve fuel g pv = .done b') :
    getCell b'.board y x = .val (givenAt g y x) := by
  refine iterate2_preserves_val fuel (Board.init g pv) 0 b' hdone y x _ ?_
  rw [getCell_init g pv y x hy hx, if_neg hnz]

/-- Witness for C6 at the 4×4 scenario: the given `2` at `(0, 0)` is
still there in the returned solution. -/
theorem c6_witness : getCell c5Board.board 0 0 = .val 2 :=
  c6_given_values_preserved g45 A4 40 c5Board 0 0 (by decide) (by decide) (by decide) rfl

/-- C8: the `unsolved` counter is non-increasing across the entire
search: an elimination leaves it unchanged, a whole propagation leaves
it unchanged, settling a cell (forced collapse or branch guess, both
`collapseCell`) decrements it, and any board returned by `iterate2` has
a counter no larger than the board it started from. -/
theorem c8_unsolved_monotone :
    (∀ (b : Board) (y x v : Nat), (elimAt b y x v).unsolved = b.unsolved) ∧
    (∀ (b : Board) (y x v : Nat), (propagate b y x v).unsolved = b.unsolved) ∧
    (∀ (b : Board) (y x v : Nat), (collapseCell b y x v).unsolved ≤ b.unsolved) ∧
    (∀ (f : Nat) (b : Board) (i : Nat) (b' : Board),
      iterate2 f b i = .done b' → b'.unsolved ≤ b.unsolved) :=
  ⟨elimAt_unsolved,
   fun b y x v => by rw [propagate_def]; exact elimFold_unsolved v _ b,
   fun b y x v => Nat.sub_le _ _,
   iterate2_unsolved_mono⟩

/-- Witness for C8's end-to-end part at the 4×4 scenario: the returned
board's counter (0) is at most the initial board's (11). -/
theorem c8_witness : c5Board.unsolved ≤ (Board.init g45 A4).unsolved :=
  c8_unsolved_monotone.2.2.2 40 (Board.init g45 A4) 0 c5Board rfl

/-- C9 amended: the minimum-entropy scan does return a coordinate
whenever some cell of the scanned range still holds a candidate list of
fewer than 10 candidates — in particular whenever a board with side at
most 9 has any undetermined cell.  (The counterexample shows the
remaining cases — no undetermined cell, or all candidate lists of
length ≥ 10 — are reachable and crash `iterate2`.) -/
theorem c9_amended (b : Board)
    (h : ∃ y x cs, y < b.height ∧ x < b.width ∧
      getCell b.board y x = .cands cs ∧ cs.length < 10) :
    lowestEntropy b ≠ none := by
  obtain ⟨y, x, cs, hy, hx, hc, hlen⟩ := h
  unfold lowestEntropy
  refine lowestEntropy_aux b (positions b.height b.width) (10, none)
    (Or.inr ⟨(y, x), (mem_positions _ _ _).mpr ⟨hy, hx⟩, cs, hc, hlen⟩)
    (fun _ => rfl) (Nat.le_refl 10)

/-- Witness for the amended C9: the initial 4×4 scenario board has the
undetermined cell `(0, 1)` with 4 candidates, so the scan finds a
coordinate. -/
theorem c9_amended_witness : lowestEntropy (Board.init g45 A4) ≠ none :=
  c9_amended (Board.init g45 A4)
    ⟨0, 1, A4, by decide, by decide, by rfl, by decide⟩

/-- C1 amended: the validity property holds for well-formed, consistent
inputs — a square grid whose side is a perfect square, an alphabet of
`side` distinct symbols, every given value drawn from the alphabet, and
no two equal givens sharing a row, column or sub-square.  Under these
hypotheses every row, every column and every sub-square of any solved
board the solver returns contains each alphabet value exactly once.
(The counterexample shows both consistency hypotheses are necessary:
duplicated givens or an out-of-alphabet given make the solver return an
invalid grid.) -/
theorem c1_validity_for_consistent_inputs
    (g : List (List Nat)) (A : List Nat) (fuel : Nat) (b' : Board)
    (hn : 0 < g.length)
    (hrows : ∀ r ∈ g, r.length = g.length)
    (hsq : intSqrt g.length * intSqrt g.length = g.length)
    (hAlen : A.length = g.length)
    (hAnd : A.Nodup)
    (hgA : ∀ y, y < g.length → ∀ x, x < g.length →
      givenAt g y x ≠ 0 → givenAt g y x ∈ A)
    (hcons : ∀ y, y < g.length → ∀ x, x < g.length → ∀ y', y' < g.length →
      ∀ x', x' < g.length → peer (intSqrt g.length) (y, x) (y', x') →
      givenAt g y x ≠ 0 → givenAt g y' x' ≠ 0 →
      givenAt g y x ≠ givenAt g y' x')
    (hdone : solve fuel g A = .done b') :
    (∀ y, y < g.length → ∀ v, v ∈ A → (rowVals b' y).count v = 1) ∧
    (∀ x, x < g.length → ∀ v, v ∈ A → (colVals b' x).count v = 1) ∧
    (∀ i, i < intSqrt g.length → ∀ j, j < intSqrt g.length →
      ∀ v, v ∈ A → (boxVals b' i j).count v = 1) := by
  have hF := iterate2_master A fuel (Board.init g A) 0 b'
    (inv_init g A hn hrows hsq hAnd hgA hcons) hdone
  have hh : (g.headD []).length = g.length := init_height_eq g hn hrows
  have hwid : b'.width = g.length := hF.weq
  have hhei : b'.height = g.length := hF.heq.trans hh
  have hsb' : b'.sub_block = intSqrt g.length := hF.sbeq
  have hblen : b'.board.length = g.length := by rw [hF.wf.blen, hwid]
  have hrlen : ∀ y, y < g.length → (b'.board.getD y []).length = g.length := by
    intro y hy
    rw [getD_of_rlen b'.board b'.width hF.wf.rlen y (by omega), hwid]
  have hb : ∀ y x, y < g.length → x < g.length → inBnds b' (y, x) := by
    intro y x hy hx
    exact ⟨by rw [hblen]; exact hy, by rw [hrlen y hy]; exact hx⟩
  refine ⟨?_, ?_, ?_⟩
  · intro y hy v hv
    have hps := unit_count A b' hAnd hF.allv hF.vals hF.dist
      ((List.range g.length).map (fun x => ((y, x) : Nat × Nat)))
      (by rw [List.length_map, List.length_range, hAlen])
      (by
        intro p hp
        rcases List.mem_map.mp hp with ⟨x, hx, rfl⟩
        exact hb y x hy (List.mem_range.mp hx))
      (by
        refine List.Pairwise.map _ ?_ (List.pairwise_lt_range g.length)
        intro a c hac
        refine ⟨?_, Or.inl rfl⟩
        intro he
        rw [Prod.mk.injEq] at he
        omega) v hv
    rw [List.map_map] at hps
    have heq : rowVals b' y
        = (List.range g.length).map (fun x => cellValue (getCell b'.board y x)) := by
      unfold rowVals
      rw [hwid]
    rw [heq]
    exact hps
  · intro x hx v hv
    have hps := unit_count A b' hAnd hF.allv hF.vals hF.dist
      ((List.range g.length).map (fun y => ((y, x) : Nat × Nat)))
      (by rw [List.length_map, List.length_range, hAlen])
      (by
        intro p hp
        rcases List.mem_map.mp hp with ⟨y, hy, rfl⟩
        exact hb y x (List.mem_range.mp hy) hx)
      (by
        refine List.Pairwise.map _ ?_ (List.pairwise_lt_range g.length)
        intro a c hac
        refine ⟨?_, Or.inr (Or.inl rfl)⟩
        intro he
        rw [Prod.mk.injEq] at he
        omega) v hv
    rw [List.map_map] at hps
    have heq : colVals b' x
        = (List.range g.length).map (fun y => cellValue (getCell b'.board y x)) := by
      unfold colVals
      rw [hhei]
    rw [heq]
    exact hps
  · intro i hi j hj v hv
    have hsb0 : 0 < intSqrt g.length := by rw [← hsb']; exact hF.wf.sb
    have hdiv : ∀ a d, d < intSqrt g.length →
        (a * intSqrt g.length + d) / intSqrt g.length = a := by
      intro a d hd
      rw [Nat.add_comm, Nat.add_mul_div_right _ _ hsb0, Nat.div_eq_of_lt hd, Nat.zero_add]
    have hco : ∀ a d, a < intSqrt g.length → d < intSqrt g.length →
        a * intSqrt g.length + d < g.length := by
      intro a d ha hd
      have h1 : (a + 1) * intSqrt g.length ≤ intSqrt g.length * intSqrt g.length :=
        Nat.mul_le_mul_right _ (by omega)
      have h2 : (a + 1) * intSqrt g.length = a * intSqrt g.length + intSqrt g.length :=
        Nat.succ_mul a _
      omega
    have hps := unit_count A b' hAnd hF.allv hF.vals hF.dist
      ((List.range (intSqrt g.length)).flatMap
        (fun dy => (List.range (intSqrt g.length)).map
          (fun dx => ((i * intSqrt g.length + dy, j * intSqrt g.length + dx) : Nat × Nat))))
      (by
        show (List.flatten _).length = _
        rw [List.length_flatten, List.map_map]
        rw [List.map_congr_left (fun dy _ => by
          show ((List.range (intSqrt g.length)).map _).length = intSqrt g.length
          rw [List.length_map, List.length_range])]
        rw [sum_map_const, List.length_range, hsq, hAlen])
      (by
        intro p hp
        rw [List.mem_flatMap] at hp
        obtain ⟨dy, hdy, hp2⟩ := hp
        rw [List.mem_map] at hp2
        obtain ⟨dx, hdx, rfl⟩ := hp2
        exact hb _ _ (hco i dy hi (List.mem_range.mp hdy))
          (hco j dx hj (List.mem_range.mp hdx)))
      (by
        rw [hsb']
        show List.Pairwise _ (List.flatten _)
        rw [List.pairwise_flatten]
        constructor
        · intro l hl
          rw [List.mem_map] at hl
          obtain ⟨dy, hdy, rfl⟩ := hl
          refine List.Pairwise.map _ ?_ (List.pairwise_lt_range _)
          intro a c hac
          refine ⟨?_, Or.inl rfl⟩
          intro he
          rw [Prod.mk.injEq] at he
          omega
        · refine List.Pairwise.map _ ?_
            (List.Pairwise.and_mem.mp (List.pairwise_lt_range _))
          intro a c hR
          obtain ⟨ham, hcm, hac⟩ := hR
          have ha := List.mem_range.mp ham
          have hcc := List.mem_range.mp hcm
          intro p hp q hq
          rw [List.mem_map] at hp hq
          obtain ⟨dx1, hdx1, rfl⟩ := hp
          obtain ⟨dx2, hdx2, rfl⟩ := hq
          refine ⟨?_, Or.inr (Or.inr ⟨?_, ?_⟩)⟩
          · intro he
            rw [Prod.mk.injEq] at he
            omega
          · rw [hdiv i a ha, hdiv i c hcc]
          · rw [hdiv j dx1 (List.mem_range.mp hdx1), hdiv j dx2 (List.mem_range.mp hdx2)]) v hv
    have heq : boxVals b' i j
        = ((List.range (intSqrt g.length)).flatMap
            (fun dy => (List.range (intSqrt g.length)).map
              (fun dx => ((i * intSqrt g.length + dy, j * intSqrt g.length + dx) : Nat × Nat)))).map
          (fun p => cellValue (cellAt b' p)) := by
      unfold boxVals
      rw [hsb', List.map_flatMap]
      refine congrArg _ (funext fun dy => ?_)
      rw [List.map_map]
      rfl
    rw [heq]
    exact hps

/-- Witness for the amended C1 at the 4×4 scenario: the alphabet value 1
occurs exactly once in row 0 of the returned solution. -/
theorem c1_amended_witness : (rowVals c5Board 0).count 1 = 1 := by
  have h := c1_validity_for_consistent_inputs g45 A4 40 c5Board (by decide) (by decide)
    (by decide) (by decide) (by decide) (by decide) (by decide) rfl
  exact h.1 0 (by decide) 1 (by decide)

end Main
